import Mathlib

/-
Verification of the keystone-cli workflow engine core against its
specification.  The executable TypeScript sources are shallowly embedded as
Lean definitions: JS strings become `List Char` (or `List Nat` of code
points where byte-level UTF-8 handling matters), JS `Set`/`Map` become
insertion-ordered lists with set semantics, `Date.now()` becomes an explicit
`Int` argument, and the database becomes an explicit value threaded through
an operation trace.
-/

set_option maxRecDepth 4000

namespace Keystone

/-! ## Generic list helpers (JS `Set` / substring semantics) -/

/-- JS `Set.add`: append the element if it is not already present
(insertion order is preserved). -/
def setAdd (l : List String) (x : String) : List String :=
  if l.contains x then l else l ++ [x]

/-- JS `Set.delete` on a set represented as a duplicate-free list. -/
def setDel (l : List String) (x : String) : List String :=
  l.filter (fun y => y != x)

/-- `String.prototype.includes` on character lists: `pat` occurs as a
contiguous infix of `text`. -/
def listHasInfix (pat : List Char) : List Char → Bool
  | [] => pat.isEmpty
  | c :: rest => pat.isPrefixOf (c :: rest) || listHasInfix pat rest

/-- Last-binding-wins lookup, the semantics a JS object literal built by
spreads gives to a key. -/
def lookupLast (l : List (String × String)) (k : String) : Option String :=
  l.foldl (fun acc p => if p.1 == k then some p.2 else acc) none

/-- Association-list lookup (first binding wins, used for genuine maps). -/
def lookupA {α : Type} (l : List (String × α)) (k : String) : Option α :=
  match l with
  | [] => none
  | (k0, v) :: rest => if k0 == k then some v else lookupA rest k

/-! ## Workflow scheduler (src/runner/workflow-scheduler.ts) -/

inductive StepType where
  | shell | llm | sleep | human | memory | subWorkflow | join | dynamic
  deriving DecidableEq, Repr

/-- A workflow step as the scheduler sees it: `id`, `type` and the optional
`needs[]` dependency list (the code reads `step.needs ?? []`). -/
structure Step where
  id : String
  stype : StepType
  needs : Option (List String)
  deriving DecidableEq, Repr

/-- `WorkflowScheduler` state: the topological execution order, the three
`Set<string>` partitions and the `Map` from step id to step. -/
structure Scheduler where
  executionOrder : List String
  pendingSteps : List String
  runningSteps : List String
  completedSteps : List String
  stepMap : List (String × Step)
  deriving Repr

/-- The `WorkflowScheduler` constructor.  `topologicalSort` lives in the
external `WorkflowParser`; the resulting order is taken as an argument.
`alreadyCompleted` seeds `completedSteps`, and `pendingSteps` is the
execution order with the completed ids filtered out. -/
def mkScheduler (steps : List Step) (order : List String)
    (alreadyCompleted : List String) : Scheduler :=
  let completed := alreadyCompleted.foldl setAdd []
  { executionOrder := order
    pendingSteps := order.filter (fun id => !(completed.contains id))
    runningSteps := []
    completedSteps := completed
    stepMap := steps.map (fun s => (s.id, s)) }

/-- `markStepComplete`: add to completed, drop from pending and running. -/
def markStepComplete (S : Scheduler) (stepId : String) : Scheduler :=
  { S with
    completedSteps := setAdd S.completedSteps stepId
    pendingSteps := setDel S.pendingSteps stepId
    runningSteps := setDel S.runningSteps stepId }

/-- `startStep`: move from pending to running. -/
def startStep (S : Scheduler) (stepId : String) : Scheduler :=
  { S with
    pendingSteps := setDel S.pendingSteps stepId
    runningSteps := setAdd S.runningSteps stepId }

/-- `markStepFailed`: remove from running; the code deliberately does not
add the id back to pending. -/
def markStepFailed (S : Scheduler) (stepId : String) : Scheduler :=
  { S with runningSteps := setDel S.runningSteps stepId }

/-- `isStepReady`: join steps check `needs ?? []` with an explicit empty
case; every other type checks that each dependency is completed. -/
def isStepReady (S : Scheduler) (step : Step) : Bool :=
  match step.stype with
  | StepType.join =>
    let needs := step.needs.getD []
    if needs.isEmpty then true
    else needs.all (fun dep => S.completedSteps.contains dep)
  | _ => (step.needs.getD []).all (fun dep => S.completedSteps.contains dep)

/-- The loop body of `getRunnableSteps`: walk the pending ids in insertion
order, breaking as soon as `runningCount + runnable.length` reaches the
global concurrency limit; `k` is the number of steps pushed so far. -/
def getRunnableGo (S : Scheduler) (runningCount limit : Nat) :
    List String → Nat → List Step
  | [], _ => []
  | stepId :: rest, k =>
    if limit ≤ runningCount + k then []
    else
      match lookupA S.stepMap stepId with
      | none => getRunnableGo S runningCount limit rest k
      | some step =>
        if isStepReady S step then step :: getRunnableGo S runningCount limit rest (k + 1)
        else getRunnableGo S runningCount limit rest k

/-- `getRunnableSteps(runningCount, globalConcurrencyLimit)`. -/
def getRunnableSteps (S : Scheduler) (runningCount limit : Nat) : List Step :=
  getRunnableGo S runningCount limit S.pendingSteps 0

/-- A scheduler mutator call, for quantifying over call sequences. -/
inductive SchedMut where
  | start (id : String)
  | complete (id : String)
  | fail (id : String)
  deriving DecidableEq, Repr

def applyMut (S : Scheduler) : SchedMut → Scheduler
  | SchedMut.start id => startStep S id
  | SchedMut.complete id => markStepComplete S id
  | SchedMut.fail id => markStepFailed S id

def applyMuts (S : Scheduler) (ms : List SchedMut) : Scheduler :=
  ms.foldl applyMut S

/-- The step map sends each id to a step carrying that id (true of every
scheduler built by the constructor). -/
def schedWellFormed (S : Scheduler) : Prop :=
  ∀ id st, lookupA S.stepMap id = some st → st.id = id

/-- The pending and running sets are disjoint. -/
def pendDisjoint (S : Scheduler) : Prop :=
  ∀ x, x ∈ S.pendingSteps → x ∉ S.runningSteps

/-! ## Circuit breaker (src/utils/circuit-breaker.ts) -/

inductive CState where
  | closed | opened | halfOpen
  deriving DecidableEq, Repr

structure CBOpts where
  failureThreshold : Nat
  resetTimeout : Int
  successThreshold : Nat
  deriving DecidableEq, Repr

structure CB where
  state : CState
  failureCount : Nat
  successCount : Nat
  lastFailureTime : Int
  deriving DecidableEq, Repr

/-- A fresh breaker: CLOSED with zeroed counters. -/
def newCB : CB := ⟨CState.closed, 0, 0, 0⟩

/-- `transitionTo`: CLOSED resets both counters, HALF_OPEN resets the
success counter. -/
def transitionTo (cb : CB) (s : CState) : CB :=
  match s with
  | CState.closed => { cb with state := s, failureCount := 0, successCount := 0 }
  | CState.halfOpen => { cb with state := s, successCount := 0 }
  | CState.opened => { cb with state := s }

/-- The `isAllowed` getter.  Reading it in the OPEN state after
`resetTimeout` has elapsed since the last failure mutates the breaker to
HALF_OPEN; the returned pair is (value, breaker after the read). -/
def isAllowed (o : CBOpts) (cb : CB) (now : Int) : Bool × CB :=
  match cb.state with
  | CState.closed => (true, cb)
  | CState.opened =>
    if o.resetTimeout ≤ now - cb.lastFailureTime then
      (true, transitionTo cb CState.halfOpen)
    else (false, cb)
  | CState.halfOpen => (true, cb)

/-- `onSuccess`: reset the failure count; in HALF_OPEN count successes and
close once the threshold is reached. -/
def onSuccess (o : CBOpts) (cb : CB) : CB :=
  let cb1 := { cb with failureCount := 0 }
  match cb1.state with
  | CState.halfOpen =>
    let cb2 := { cb1 with successCount := cb1.successCount + 1 }
    if o.successThreshold ≤ cb2.successCount then transitionTo cb2 CState.closed
    else cb2
  | _ => cb1

/-- `onFailure`: bump the failure count, stamp the failure time, zero the
success count; HALF_OPEN trips straight back to OPEN, CLOSED opens once the
failure threshold is reached. -/
def onFailure (o : CBOpts) (cb : CB) (now : Int) : CB :=
  let cb1 := { cb with
    failureCount := cb.failureCount + 1
    lastFailureTime := now
    successCount := 0 }
  match cb1.state with
  | CState.halfOpen => transitionTo cb1 CState.opened
  | CState.closed =>
    if o.failureThreshold ≤ cb1.failureCount then transitionTo cb1 CState.opened
    else cb1
  | CState.opened => cb1

/-- `execute(fn)`: consult `isAllowed` (which may mutate the state); when
not allowed, reject without running `fn`.  The boolean in the result
records whether `fn` was run. -/
def executeCB (o : CBOpts) (cb : CB) (now : Int) (fn : Except String Int) :
    Except String Int × CB × Bool :=
  let res := isAllowed o cb now
  if res.1 then
    match fn with
    | Except.ok v => (Except.ok v, onSuccess o res.2, true)
    | Except.error e => (Except.error e, onFailure o res.2 now, true)
  else (Except.error ("Circuit breaker is OPEN - request rejected"), res.2, false)

/-- Record a failure at each time in the list, left to right. -/
def applyFailures (o : CBOpts) (cb : CB) (ts : List Int) : CB :=
  ts.foldl (fun c t => onFailure o c t) cb

/-! ## MCP local transport child environment (mcp-client.ts, StdConfigTransport) -/

/-- The child environment `StdConfigTransport` passes to `spawn`:
the JS spread `{ ...process.env, ...env }` — the caller-supplied `env`
overlaid on the full parent environment, with no filtering. -/
def childEnv (parentEnv callerEnv : List (String × String)) :
    List (String × String) :=
  parentEnv ++ callerEnv

/-- The sensitive-key pattern `API_KEY|TOKEN|SECRET|PASSWORD|CREDENTIAL|AUTH`
from the specification (the code never applies it). -/
def sensitiveEnvName (k : String) : Bool :=
  listHasInfix ("API_KEY").toList k.toList ||
  listHasInfix ("TOKEN").toList k.toList ||
  listHasInfix ("SECRET").toList k.toList ||
  listHasInfix ("PASSWORD").toList k.toList ||
  listHasInfix ("CREDENTIAL").toList k.toList ||
  listHasInfix ("AUTH").toList k.toList

/-! ## Redactor and RedactionBuffer (redactor.ts) -/

/-- `\w` of a JS regex: ASCII letter, digit or underscore. -/
def isWordChar (c : Char) : Bool :=
  (('a' ≤ c && c ≤ 'z') || ('A' ≤ c && c ≤ 'Z') ||
   ('0' ≤ c && c ≤ '9') || c = '_')

/-- A compiled secret pattern: the escaped secret matches literally; the
booleans record whether a `\b` word boundary was attached at the start /
end (done only for secrets shorter than 5 characters whose first / last
character is a word character). -/
structure SecretPat where
  pat : List Char
  startB : Bool
  endB : Bool
  deriving DecidableEq, Repr

def boundaryStartOk (startB : Bool) (prev : Option Char) : Bool :=
  if startB then
    match prev with
    | none => true
    | some p => !(isWordChar p)
  else true

def boundaryEndOk (endB : Bool) (rest : List Char) : Bool :=
  if endB then
    match rest with
    | [] => true
    | a :: _ => !(isWordChar a)
  else true

/-- One step of `String.replace(pattern, repl)` with a `g` regex: scan left
to right, replacing each leftmost non-overlapping match.  `prev` is the
character of the *input* preceding the current position (JS evaluates `\b`
against the input string), `fuel` bounds the recursion by the input
length. -/
def replaceGo (p : Char) (ps : List Char) (sb eb : Bool) (repl : List Char) :
    Nat → Option Char → List Char → List Char
  | 0, _, text => text
  | Nat.succ fuel, prev, text =>
    match text with
    | [] => []
    | c :: rest =>
      if (p :: ps).isPrefixOf (c :: rest)
          && boundaryStartOk sb prev
          && boundaryEndOk eb (rest.drop ps.length)
      then repl ++ replaceGo p ps sb eb repl fuel (some (ps.getLastD p)) (rest.drop ps.length)
      else c :: replaceGo p ps sb eb repl fuel (some c) rest

def replaceAllPat (sp : SecretPat) (repl text : List Char) : List Char :=
  match sp.pat with
  | [] => text
  | p :: ps => replaceGo p ps sp.startB sp.endB repl text.length none text

/-- The sensitive key fragments of the `Redactor` constructor. -/
def sensitiveKeys : List String :=
  [("api_key"), ("apikey"), ("token"), ("secret"), ("password"), ("pswd"),
   ("passwd"), ("pwd"), ("auth"), ("credential"), ("access_key"), ("private_key")]

/-- `key.toLowerCase()` contains one of the sensitive fragments. -/
def isSensitiveKey (key : String) : Bool :=
  sensitiveKeys.any (fun t => listHasInfix t.toList (key.toList.map Char.toLower))

/-- One entry of the `secretsToRedact` accumulation: skip empty values,
add a value with a sensitive key or length ≥ 3 unless already present. -/
def strStep (acc : List (List Char)) (kv : String × String) : List (List Char) :=
  if kv.2.isEmpty then acc
  else if isSensitiveKey kv.1 || 3 ≤ kv.2.length then
    if acc.contains kv.2.toList then acc else acc ++ [kv.2.toList]
  else acc

/-- The `secretsToRedact` set: values that are non-empty and either have a
sensitive key or length ≥ 3, deduplicated in insertion order (a JS `Set`). -/
def secretsToRedact (secrets : List (String × String)) : List (List Char) :=
  secrets.foldl strStep []

/-- Stable insertion of `v` into a list sorted by length descending: `v`
goes after every element whose length is at least `v`'s (JS `sort` with
comparator `(a, b) => b.length - a.length` is stable). -/
def insByLenDesc (v : List Char) : List (List Char) → List (List Char)
  | [] => [v]
  | y :: ys => if y.length < v.length then v :: y :: ys else y :: insByLenDesc v ys

def sortByLenDesc (l : List (List Char)) : List (List Char) :=
  l.foldl (fun acc v => insByLenDesc v acc) []

/-- Compile one secret to its pattern, attaching word boundaries only for
secrets shorter than 5 characters (regex escaping makes the match
literal, so it is modelled as literal matching). -/
def compilePat (secret : List Char) : SecretPat :=
  if secret.length < 5 then
    { pat := secret
      startB := match secret with
        | [] => false
        | c :: _ => isWordChar c
      endB := match secret.getLast? with
        | none => false
        | some c => isWordChar c }
  else { pat := secret, startB := false, endB := false }

/-- The full `Redactor` state: compiled patterns in length-descending
order plus `maxSecretLength`. -/
structure Redactor where
  patterns : List SecretPat
  maxSecretLength : Nat
  deriving Repr

def mkRedactor (secrets : List (String × String)) : Redactor :=
  let uniq := sortByLenDesc (secretsToRedact secrets)
  { patterns := uniq.map compilePat
    maxSecretLength := (secretsToRedact secrets).foldl (fun m s => max m s.length) 0 }

def redactedToken : List Char := ("***REDACTED***").toList

/-- `Redactor.redact`: strings shorter than 3 characters are returned
unchanged, otherwise every pattern is applied in order. -/
def redact (r : Redactor) (text : List Char) : List Char :=
  if text.length < 3 then text
  else r.patterns.foldl (fun t sp => replaceAllPat sp redactedToken t) text

/-- A JSON-ish value for `redactValue`. -/
inductive RVal where
  | str (s : List Char)
  | arr (l : List RVal)
  | obj (l : List (String × RVal))
  | other

mutual

/-- `Redactor.redactValue`: redact strings, recurse through arrays and
objects, leave everything else alone. -/
def redactValue (r : Redactor) : RVal → RVal
  | RVal.str s => RVal.str (redact r s)
  | RVal.arr l => RVal.arr (redactValueList r l)
  | RVal.obj l => RVal.obj (redactValueObj r l)
  | RVal.other => RVal.other

def redactValueList (r : Redactor) : List RVal → List RVal
  | [] => []
  | v :: rest => redactValue r v :: redactValueList r rest

def redactValueObj (r : Redactor) : List (String × RVal) → List (String × RVal)
  | [] => []
  | kv :: rest => (kv.1, redactValue r kv.2) :: redactValueObj r rest

end

/-- `RedactionBuffer.process`: append the chunk, redact the whole buffer;
if the redacted buffer is shorter than the longest secret emit nothing,
otherwise emit everything except a tail of exactly `maxSecretLength`
characters.  Returns (emitted, new buffer). -/
def rbProcess (r : Redactor) (buffer chunk : List Char) :
    List Char × List Char :=
  let buf := buffer ++ chunk
  let red := redact r buf
  if red.length < r.maxSecretLength then ([], red)
  else
    let safeLength := red.length - r.maxSecretLength
    (red.take safeLength, red.drop safeLength)

/-- `RedactionBuffer.flush`: redact and drain the buffer. -/
def rbFlush (r : Redactor) (buffer : List Char) : List Char :=
  redact r buffer

/-- Stream a list of chunks through a `RedactionBuffer` and concatenate
everything emitted, including the final `flush()`. -/
def rbStream (r : Redactor) (chunks : List (List Char)) : List Char :=
  let fin := chunks.foldl
    (fun acc chunk =>
      let step := rbProcess r acc.2 chunk
      (acc.1 ++ step.1, step.2))
    (([] : List Char), ([] : List Char))
  fin.1 ++ rbFlush r fin.2

/-! ## Output limiter (src/utils/stream-utils.ts)

Text is represented as a list of Unicode code points (`List Nat`) and input
chunks as byte lists.  `node:string_decoder`'s incremental UTF-8 decoder is
modelled from its documented behaviour: `write` emits the code points of
every complete sequence and buffers a trailing incomplete sequence; `end`
flushes a non-empty buffer as U+FFFD; invalid bytes decode to U+FFFD. -/

def repChar : Nat := 0xFFFD

def isScalar (c : Nat) : Bool :=
  c < 0x110000 && !(0xD800 ≤ c && c < 0xE000)

def contOk (b : Nat) : Bool := 0x80 ≤ b && b < 0xC0

def seqOk2 (cp : Nat) : Bool := 0x80 ≤ cp && cp < 0x800

def seqOk3 (cp : Nat) : Bool := 0x800 ≤ cp && cp < 0x10000 && !(0xD800 ≤ cp && cp < 0xE000)

def seqOk4 (cp : Nat) : Bool := 0x10000 ≤ cp && cp < 0x110000

/-- Classification of a byte as a UTF-8 lead: ASCII, a stray continuation
byte, the lead of a 2/3/4-byte sequence, or invalid (≥ 0xF8). -/
inductive LeadClass where
  | ascii | cont | two | three | four | bad
  deriving DecidableEq, Repr

def leadClass (b : Nat) : LeadClass :=
  if b < 0x80 then LeadClass.ascii
  else if b < 0xC0 then LeadClass.cont
  else if b < 0xE0 then LeadClass.two
  else if b < 0xF0 then LeadClass.three
  else if b < 0xF8 then LeadClass.four
  else LeadClass.bad

/-- Incremental greedy UTF-8 decode of a byte list: returns the decoded
code points and the buffered trailing incomplete sequence.  A complete
well-formed sequence decodes to its code point, a complete malformed one
to U+FFFD (consuming the lead byte), and a trailing incomplete sequence is
buffered. -/
def decodeCore : List Nat → List Nat × List Nat
  | [] => ([], [])
  | b :: rest =>
    match leadClass b, rest with
    | LeadClass.ascii, l =>
      let r := decodeCore l
      (b :: r.1, r.2)
    | LeadClass.cont, l =>
      let r := decodeCore l
      (repChar :: r.1, r.2)
    | LeadClass.bad, l =>
      let r := decodeCore l
      (repChar :: r.1, r.2)
    | LeadClass.two, [] => ([], [b])
    | LeadClass.two, b1 :: r2 =>
      let cp := (b - 0xC0) * 64 + (b1 - 0x80)
      if contOk b1 && seqOk2 cp then
        let r := decodeCore r2
        (cp :: r.1, r.2)
      else
        let r := decodeCore (b1 :: r2)
        (repChar :: r.1, r.2)
    | LeadClass.three, [] => ([], [b])
    | LeadClass.three, [b1] => ([], [b, b1])
    | LeadClass.three, b1 :: b2 :: r3 =>
      let cp := (b - 0xE0) * 4096 + (b1 - 0x80) * 64 + (b2 - 0x80)
      if contOk b1 && contOk b2 && seqOk3 cp then
        let r := decodeCore r3
        (cp :: r.1, r.2)
      else
        let r := decodeCore (b1 :: b2 :: r3)
        (repChar :: r.1, r.2)
    | LeadClass.four, [] => ([], [b])
    | LeadClass.four, [b1] => ([], [b, b1])
    | LeadClass.four, [b1, b2] => ([], [b, b1, b2])
    | LeadClass.four, b1 :: b2 :: b3 :: r4 =>
      let cp := (b - 0xF0) * 262144 + (b1 - 0x80) * 4096 + (b2 - 0x80) * 64 + (b3 - 0x80)
      if contOk b1 && contOk b2 && contOk b3 && seqOk4 cp then
        let r := decodeCore r4
        (cp :: r.1, r.2)
      else
        let r := decodeCore (b1 :: b2 :: b3 :: r4)
        (repChar :: r.1, r.2)

/-- `StringDecoder.end()`: a non-empty buffered incomplete sequence is
flushed as the replacement character. -/
def decodeEnd (pend : List Nat) : List Nat :=
  match pend with
  | [] => []
  | _ => [repChar]

/-- Standard UTF-8 encoding of one scalar code point. -/
def utf8EncodeChar (c : Nat) : List Nat :=
  if c < 0x80 then [c]
  else if c < 0x800 then [0xC0 + c / 64, 0x80 + c % 64]
  else if c < 0x10000 then [0xE0 + c / 4096, 0x80 + c / 64 % 64, 0x80 + c % 64]
  else [0xF0 + c / 262144, 0x80 + c / 4096 % 64, 0x80 + c / 64 % 64, 0x80 + c % 64]

def utf8Encode (l : List Nat) : List Nat :=
  (l.map utf8EncodeChar).flatten

/-- `TRUNCATED_SUFFIX = "\n... [truncated]"` as code points. -/
def truncSfx : List Nat := ("\n... [truncated]").toList.map Char.toNat

/-- The closure state of `createOutputLimiter`:  `bytes` appended so far,
the decoded `text`, the decoder's buffered bytes and the `truncated` flag. -/
structure LimState where
  bytes : Nat
  text : List Nat
  pend : List Nat
  trunc : Bool
  deriving DecidableEq, Repr

def limInit : LimState := ⟨0, [], [], false⟩

/-- `append(chunk)`: refuse once truncated or when `maxBytes <= 0`; refuse
and mark truncated when no capacity remains; otherwise decode either the
whole chunk or its first `remaining` bytes (marking truncated). -/
def limAppend (maxBytes : Nat) (st : LimState) (chunk : List Nat) : LimState :=
  if st.trunc || maxBytes == 0 then { st with trunc := true }
  else
    let remaining := maxBytes - st.bytes
    if remaining == 0 then { st with trunc := true }
    else if chunk.length ≤ remaining then
      let r := decodeCore (st.pend ++ chunk)
      { bytes := st.bytes + chunk.length, text := st.text ++ r.1, pend := r.2, trunc := false }
    else
      let sub := chunk.take remaining
      let r := decodeCore (st.pend ++ sub)
      { bytes := maxBytes, text := st.text ++ r.1, pend := r.2, trunc := true }

/-- `finalize()`: flush the decoder, then append the truncation suffix if
truncated. -/
def limFinalize (st : LimState) : List Nat :=
  let text := st.text ++ decodeEnd st.pend
  if st.trunc then text ++ truncSfx else text

/-- Feed every chunk through `append` and `finalize` the result. -/
def limRun (maxBytes : Nat) (chunks : List (List Nat)) : List Nat :=
  limFinalize (chunks.foldl (limAppend maxBytes) limInit)

/-- The exact condition under which no `append` call ever trips the
`truncated` flag: every call starts strictly below the cap and its chunk
fits in the remaining capacity. -/
def limGood (maxBytes : Nat) : Nat → List (List Nat) → Bool
  | _, [] => true
  | b, c :: cs =>
    decide (b < maxBytes) && decide (b + c.length ≤ maxBytes) &&
      limGood maxBytes (b + c.length) cs

/-! ## Workflow state hydration (src/runner/workflow-state.ts)

The database is embedded as the list of `step_executions` rows of one
step of one run (the only rows `restore()` touches for that step); stored
JSON is modelled as already-parsed `Json` values (`JSON.parse` of a stored
string is external I/O).  Every database call `restore()` makes is recorded
in a trace of `DbOp`s, with the full `WorkflowDb` write surface present so
that "performs no write" is a non-trivial statement. -/

inductive StepStatus where
  | pending | running | success | failed | skipped | suspended
  deriving DecidableEq, Repr

inductive Json where
  | null
  | bool (b : Bool)
  | num (n : Int)
  | str (s : String)
  | arr (l : List Json)
  | obj (l : List (String × Json))

/-- One `step_executions` row (for a fixed run and step id). -/
structure ExecRow where
  execId : Nat
  iterIndex : Option Nat
  status : StepStatus
  output : Option Json
  startedAt : Option Int
  error : Option String

/-- The store, restricted to one step's rows. -/
structure Db where
  rows : List ExecRow

/-- `getMainStep`: the parent record (`iteration_index IS NULL`). -/
def getMainStep (db : Db) : Option ExecRow :=
  db.rows.find? (fun r => r.iterIndex.isNone)

/-- `getStepIterations`: all iteration children; with
`includeOutput: false` the output column is not selected. -/
def getStepIterations (db : Db) (includeOutput : Bool) : List ExecRow :=
  (db.rows.filter (fun r => r.iterIndex.isSome)).map
    (fun r => if includeOutput then r else { r with output := none })

/-- `countStepIterations`. -/
def countStepIterations (db : Db) : Nat :=
  (db.rows.filter (fun r => r.iterIndex.isSome)).length

/-- The `WorkflowDb` operations relevant here.  The last three are the
write operations of the store's API; `restore()` never issues them. -/
inductive DbOp where
  | readRun
  | readMainStep
  | readIterationCount
  | readIterations (includeOutput : Bool)
  | writeCreateStep (row : ExecRow)
  | writeStartStep (execId : Nat)
  | writeCompleteStep (execId : Nat) (st : StepStatus) (output : Option Json)

def DbOp.isWrite : DbOp → Bool
  | DbOp.readRun | DbOp.readMainStep | DbOp.readIterationCount
  | DbOp.readIterations _ => false
  | _ => true

/-- Effect of one operation on the store: reads leave it unchanged. -/
def applyDbOp (db : Db) : DbOp → Db
  | DbOp.readRun | DbOp.readMainStep | DbOp.readIterationCount
  | DbOp.readIterations _ => db
  | DbOp.writeCreateStep row => { rows := db.rows ++ [row] }
  | DbOp.writeStartStep execId =>
    { rows := db.rows.map (fun r =>
        if r.execId == execId then { r with status := StepStatus.running } else r) }
  | DbOp.writeCompleteStep execId st output =>
    { rows := db.rows.map (fun r =>
        if r.execId == execId then { r with status := st, output := output } else r) }

def applyDbOps (db : Db) (ops : List DbOp) : Db :=
  ops.foldl applyDbOp db

/-- `exec.iteration_index ?? 0`. -/
def idx0 (r : ExecRow) : Nat := r.iterIndex.getD 0

/-- The sort comparator of `restore()`: ascending `iteration_index`, ties
broken by `started_at` descending when both timestamps exist. -/
def execCmp (a b : ExecRow) : Int :=
  if idx0 a ≠ idx0 b then (idx0 a : Int) - (idx0 b : Int)
  else
    match a.startedAt, b.startedAt with
    | some sa, some sb => sb - sa
    | _, _ => 0

/-- Stable insertion for the comparator (JS `Array.prototype.sort` is
stable: an element goes after every earlier element not strictly greater). -/
def insCmp (v : ExecRow) : List ExecRow → List ExecRow
  | [] => [v]
  | y :: ys => if execCmp v y < 0 then v :: y :: ys else y :: insCmp v ys

def sortExecs (l : List ExecRow) : List ExecRow :=
  l.foldl (fun acc v => insCmp v acc) []

/-- Deduplication: keep the first row seen for each `iteration_index`. -/
def dedupByIdx (seen : List Nat) : List ExecRow → List ExecRow
  | [] => []
  | e :: rest =>
    if seen.contains (idx0 e) then dedupByIdx seen rest
    else e :: dedupByIdx (idx0 e :: seen) rest

/-- In-memory per-iteration context (`StepContext`). -/
structure ItemCtx where
  output : Option Json
  outputs : List (String × Json)
  status : StepStatus
  error : Option String

/-- The dense filler for missing indices: `status: PENDING, output: null,
outputs: {}`. -/
def pendingItem : ItemCtx :=
  { output := none, outputs := [], status := StepStatus.pending, error := none }

/-- `typeof out === 'object' && out !== null && !Array.isArray(out)`
yields the object's fields, anything else the empty object. -/
def objFields : Option Json → List (String × Json)
  | some (Json.obj l) => l
  | _ => []

/-- Modelled from the spec: `ForeachExecutor.aggregateOutputs` (its source
file is not part of the corpus) — the element-wise merge of iteration
outputs when every output is a plain object, later items overwriting
earlier keys; otherwise the empty aggregate. -/
def aggregateOutputs (outputs : List Json) : List (String × Json) :=
  let isObj : Json → Bool := fun j => match j with | Json.obj _ => true | _ => false
  if outputs.all isObj then
    outputs.foldl
      (fun acc j =>
        match j with
        | Json.obj fields =>
          fields.foldl
            (fun a kv =>
              if a.any (fun p => p.1 == kv.1) then
                a.map (fun p => if p.1 == kv.1 then kv else p)
              else a ++ [kv])
            acc
        | _ => acc)
      []
  else []

/-- The in-memory `ForeachStepContext` rebuilt by hydration. -/
structure ForeachCtx where
  output : List Json
  outputs : List (String × Json)
  status : StepStatus
  items : List ItemCtx
  foreachItems : Option (List Json)

/-- Lookup of the parent output's `__foreachItems` hydration hint. -/
def persistedForeachItems : Option Json → Option (List Json)
  | some (Json.obj l) =>
    match lookupA l ("__foreachItems") with
    | some (Json.arr items) => some items
    | _ => none
  | _ => none

/-- Resolution of `expectedCount`: first the persisted `__foreachItems`,
then evaluation of the step's `foreach` expression (the expression
evaluator is external; its outcome is the `feval` argument).  The second
component is `persistedItems`, the third is false exactly when the
evaluator threw, which the code turns into `allSuccess = false`. -/
def resolveExpected (parentOutput : Option Json) (feval : Except Unit Json) :
    Option Nat × Option (List Json) × Bool :=
  match persistedForeachItems parentOutput with
  | some items => (some items.length, some items, true)
  | none =>
    match feval with
    | Except.ok (Json.arr l) => (some l.length, none, true)
    | Except.ok _ => (none, none, true)
    | Except.error _ => (none, none, false)

/-- JS array length after `items[exec.iteration_index] = …` assignments:
one more than the largest assigned index. -/
def itemsLen (assoc : List (Nat × ItemCtx)) : Nat :=
  assoc.foldl (fun m p => max m (p.1 + 1)) 0

/-- The per-iteration context the loop builds for one row (`output`
already reflects `includeOutput`; the code re-guards with
`!isLargeDataset`). -/
def iterItem (isLarge : Bool) (e : ExecRow) : ItemCtx :=
  let out := if !isLarge then e.output else none
  { output := out
    outputs := objFields out
    status := e.status
    error := e.error }

def lookupNat {α : Type} (l : List (Nat × α)) (k : Nat) : Option α :=
  match l with
  | [] => none
  | (k0, v) :: rest => if k0 == k then some v else lookupNat rest k

/-- The assignments `items[idx] = …` over the deduplicated rows. -/
def itemsAssoc (isLarge : Bool) (uniq : List ExecRow) : List (Nat × ItemCtx) :=
  uniq.foldl
    (fun acc e =>
      match e.iterIndex with
      | none => acc
      | some i => acc ++ [(i, iterItem isLarge e)])
    []

/-- The assignments `outputs[idx] = output` (only made on small datasets;
JS holes read back as `undefined`, modelled as `Json.null`). -/
def outputsAssoc (uniq : List ExecRow) : List (Nat × Json) :=
  uniq.foldl
    (fun acc e =>
      match e.iterIndex with
      | none => acc
      | some i => acc ++ [(i, (e.output.getD Json.null))])
    []

/-- `isLargeDataset`: `countStepIterations(...) > LARGE_DATASET_THRESHOLD`
with the threshold fixed at 500. -/
def dbIsLarge (db : Db) : Bool := decide (500 < countStepIterations db)

/-- The rows fetched by `getStepIterations(runId, stepId,
includeOutput: !isLargeDataset)`. -/
def dbExecs (db : Db) : List ExecRow := getStepIterations db (!dbIsLarge db)

/-- `uniqueExecs`: the fetched rows sorted by the comparator and
deduplicated by iteration index (first, i.e. latest-started, wins). -/
def dbUniq (db : Db) : List ExecRow := dedupByIdx [] (sortExecs (dbExecs db))

/-- The loop's `allSuccess` contribution from the rows: rows with a null
index are skipped (`continue`), every other row must be success/skipped. -/
def dbAllRowsOk (db : Db) : Bool :=
  (dbUniq db).all (fun e =>
    e.iterIndex.isNone ||
    (e.status == StepStatus.success || e.status == StepStatus.skipped))

def dbAssoc (db : Db) : List (Nat × ItemCtx) := itemsAssoc (dbIsLarge db) (dbUniq db)

/-- `items.length` after the assignment loop. -/
def dbLen (db : Db) : Nat := itemsLen (dbAssoc db)

/-- `hasAllItems`: an expected count was resolved, the items array has
exactly that length, and (after the dense fill) no slot below it is
missing. -/
def hasAllItemsB (expected : Option Nat) (len : Nat) : Bool :=
  match expected with
  | none => false
  | some n => len == n && (List.range n).all (fun i => decide (i < len))

/-- The final-status derivation: promote to `success` exactly when every
iteration succeeded, all expected items are present and the persisted
parent status is not already terminal-successful. -/
def promoteStatus (mainStatus : StepStatus) (allSuccess hasAllItems : Bool) :
    StepStatus :=
  if allSuccess && hasAllItems &&
      !(mainStatus == StepStatus.success) && !(mainStatus == StepStatus.skipped)
  then StepStatus.success
  else mainStatus

/-- The incomplete-parent branch of `restore()` for a foreach step:
count the iterations, fetch them (without outputs for large datasets),
sort/deduplicate, rebuild `items` densely, resolve the expected count and
derive the in-memory status. -/
def restoreForeachIncomplete (db : Db) (feval : Except Unit Json)
    (mainExec : ExecRow) : ForeachCtx × List DbOp :=
  let isLarge := dbIsLarge db
  let uniq := dbUniq db
  let assoc := dbAssoc db
  let len := dbLen db
  let items := (List.range len).map
    (fun i => (lookupNat assoc i).getD pendingItem)
  let outputsArr : List Json :=
    if isLarge then []
    else (List.range len).map (fun i => (lookupNat (outputsAssoc uniq) i).getD Json.null)
  let resolved := resolveExpected mainExec.output feval
  let allSuccess := dbAllRowsOk db && resolved.2.2
  let mapped := if isLarge then [] else aggregateOutputs outputsArr
  ({ output := if isLarge then [] else outputsArr
     outputs := mapped
     status := promoteStatus mainExec.status allSuccess (hasAllItemsB resolved.1 len)
     items := items
     foreachItems := resolved.2.1 },
   [DbOp.readMainStep, DbOp.readIterationCount, DbOp.readIterations (!isLarge)])

/-- `restore()` for one foreach step whose parent record exists.  Returns
the rebuilt context together with the trace of database operations
performed.  `feval` stands for the external evaluation of the step's
`foreach` expression against the partially restored context. -/
def restoreForeach (db : Db) (feval : Except Unit Json) (mainExec : ExecRow) :
    ForeachCtx × List DbOp :=
  if mainExec.status = StepStatus.success ∨ mainExec.status = StepStatus.skipped then
    -- completed parent: rebuild everything from the stored aggregate output
    let outputs : List Json :=
      match mainExec.output with
      | some (Json.arr l) => l
      | _ => []
    let items : List ItemCtx := outputs.map (fun out =>
      { output := some out
        outputs := objFields (some out)
        status := StepStatus.success
        error := none })
    ({ output := outputs
       outputs := aggregateOutputs outputs
       status := mainExec.status
       items := items
       foreachItems := none },
     [DbOp.readMainStep])
  else
    restoreForeachIncomplete db feval mainExec

/-! ### Concrete stores used to instantiate the hydration theorems -/

/-- Parent output carrying the `__foreachItems` hydration hint for 3 items. -/
def exParentOut : Json :=
  Json.obj [(("__foreachItems"), Json.arr [Json.num 1, Json.num 2, Json.num 3])]

/-- A foreach parent row still `running` while all iterations succeeded. -/
def exMain1 : ExecRow :=
  { execId := 0, iterIndex := none, status := StepStatus.running
    output := some exParentOut, startedAt := none, error := none }

def exIter (i : Nat) : ExecRow :=
  { execId := i + 1, iterIndex := some i, status := StepStatus.success
    output := some (Json.num (Int.ofNat i)), startedAt := some 0, error := none }

def exDb1 : Db := ⟨exMain1 :: (List.range 3).map exIter⟩

/-- A running foreach parent with 501 persisted iterations. -/
def exMain501 : ExecRow :=
  { execId := 0, iterIndex := none, status := StepStatus.running
    output := none, startedAt := none, error := none }

def exDb501 : Db := ⟨exMain501 :: (List.range 501).map exIter⟩

/-! ## Theorems -/

theorem mem_strStep_mono {acc : List (List Char)} {kv : String × String}
    {x : List Char} (h : x ∈ acc) : x ∈ strStep acc kv := by
  unfold strStep
  split_ifs <;> simp [h]

theorem mem_foldl_strStep_mono (l : List (String × String)) :
    ∀ acc x, x ∈ acc → x ∈ l.foldl strStep acc := by
  induction l with
  | nil => intro acc x h; simpa using h
  | cons a rest ih =>
    intro acc x h
    exact ih (strStep acc a) x (mem_strStep_mono h)

theorem mem_strStep_self {acc : List (List Char)} {kv : String × String}
    (hk : isSensitiveKey kv.1 = true) (hne : kv.2.isEmpty = false) :
    kv.2.toList ∈ strStep acc kv := by
  unfold strStep
  rw [hne, hk]
  simp only [Bool.true_or, if_false, if_true]
  by_cases hc : acc.contains kv.2.toList
  · rw [if_pos hc]
    exact List.mem_of_elem_eq_true hc
  · rw [if_neg hc]
    simp

theorem mem_secretsToRedact_of_sensitive (secrets : List (String × String)) :
    ∀ kv ∈ secrets, isSensitiveKey kv.1 = true → kv.2.isEmpty = false →
      kv.2.toList ∈ secretsToRedact secrets := by
  unfold secretsToRedact
  suffices h : ∀ (l : List (String × String)) (acc : List (List Char))
      (kv : String × String), kv ∈ l →
      isSensitiveKey kv.1 = true → kv.2.isEmpty = false →
      kv.2.toList ∈ List.foldl strStep acc l by
    intro kv hm hk hn
    exact h secrets [] kv hm hk hn
  intro l
  induction l with
  | nil => intro acc kv hm; cases hm
  | cons a rest ih =>
    intro acc kv hm hk hn
    rcases List.mem_cons.mp hm with rfl | hm'
    · exact mem_foldl_strStep_mono rest (strStep acc kv) _ (mem_strStep_self hk hn)
    · exact ih (strStep acc a) kv hm' hk hn

/-- C10: `redact` returns any string shorter than 3 characters unchanged —
including through `redactValue` — even though a 1- or 2-character secret
value under a sensitive key is registered for masking. -/
theorem C10_short_text_unchanged (secrets : List (String × String))
    (text : List Char) (h : text.length < 3) :
    redact (mkRedactor secrets) text = text ∧
    redactValue (mkRedactor secrets) (RVal.str text) = RVal.str text ∧
    (∀ kv ∈ secrets, isSensitiveKey kv.1 = true → kv.2.isEmpty = false →
      kv.2.toList ∈ secretsToRedact secrets) := by
  refine ⟨?_, ?_, mem_secretsToRedact_of_sensitive secrets⟩
  · unfold redact
    rw [if_pos h]
  · show RVal.str (redact (mkRedactor secrets) text) = RVal.str text
    unfold redact
    rw [if_pos h]

theorem C10_short_text_unchanged_witness :
    ((("ab").toList.length < 3) ∧
      isSensitiveKey ("api_key") = true) ∧
    redact (mkRedactor [(("api_key"), ("ab"))]) (("ab").toList) = ("ab").toList := by
  exact ⟨by decide,
    (C10_short_text_unchanged [(("api_key"), ("ab"))] (("ab").toList) (by decide)).1⟩

/-- C2 (code bug): the child environment `StdConfigTransport` hands to
`spawn` is `{ ...process.env, ...env }` with no filtering, so a parent
variable with a sensitive name (here matching `API_KEY`) that the caller
did not re-supply is still visible to the child — the repository's own
test (`mcp-client.audit.test.ts`) expects it to be undefined. -/
theorem C2_sensitive_env_not_stripped :
    sensitiveEnvName ("TEST_API_KEY_LEAK") = true ∧
    lookupLast ([] : List (String × String)) ("TEST_API_KEY_LEAK") = none ∧
    lookupLast
        (childEnv
          [(("TEST_API_KEY_LEAK"), ("secret_value")), (("TEST_SAFE_VAR"), ("safe_value"))]
          [])
        ("TEST_API_KEY_LEAK") = some ("secret_value") := by
  refine ⟨by decide, rfl, by decide⟩

/-- C3 (code bug): configure the single secret `ACTED` (length 5 ≥ 3, so it
is registered); streaming the text `ACTED` through the `RedactionBuffer`
emits `***REDACTED***`, which contains the secret `ACTED` as a substring —
the replacement token itself re-introduces the secret. -/
theorem C3_stream_emits_secret :
    (("ACTED").toList ∈ secretsToRedact [(("k"), ("ACTED"))] ∧
      3 ≤ (("ACTED").toList).length) ∧
    listHasInfix (("ACTED").toList)
        (rbStream (mkRedactor [(("k"), ("ACTED"))]) [(("ACTED").toList)]) = true := by
  exact ⟨by decide, by decide⟩

/-- C7 (code bug): `redact` is not idempotent — with the secret `ACTED`,
`redact("ACTED") = "***REDACTED***"` still contains the secret, and a
second application rewrites it again. -/
theorem C7_redact_not_idempotent :
    redact (mkRedactor [(("secret"), ("ACTED"))])
        (redact (mkRedactor [(("secret"), ("ACTED"))]) (("ACTED").toList)) ≠
      redact (mkRedactor [(("secret"), ("ACTED"))]) (("ACTED").toList) := by
  decide

/-! ### Scheduler lemmas (C4, C9) -/

theorem mem_setDel {l : List String} {x y : String} :
    x ∈ setDel l y ↔ x ∈ l ∧ x ≠ y := by
  simp [setDel, List.mem_filter, bne_iff_ne]

theorem mem_setAdd {l : List String} {x y : String} :
    x ∈ setAdd l y ↔ x ∈ l ∨ x = y := by
  unfold setAdd
  by_cases hc : l.contains y
  · rw [if_pos hc]
    constructor
    · exact Or.inl
    · rintro (h | rfl)
      · exact h
      · exact List.mem_of_elem_eq_true hc
  · rw [if_neg hc]
    simp

theorem isStepReady_needs {S : Scheduler} {st : Step}
    (h : isStepReady S st = true) :
    ∀ dep ∈ st.needs.getD [], S.completedSteps.contains dep = true := by
  intro dep hdep
  unfold isStepReady at h
  rcases hst : st.stype <;> rw [hst] at h <;>
    first
    | exact List.all_eq_true.mp h dep hdep
    | skip
  · -- join case
    by_cases hne : (st.needs.getD []).isEmpty
    · rw [List.isEmpty_iff] at hne
      rw [hne] at hdep
      cases hdep
    · simp only [hne, if_false] at h
      exact List.all_eq_true.mp h dep hdep

theorem grsGo_sound {S : Scheduler} {rc cap : Nat} :
    ∀ (pend : List String) (k : Nat) (st : Step),
      st ∈ getRunnableGo S rc cap pend k →
      ∃ id ∈ pend, lookupA S.stepMap id = some st ∧ isStepReady S st = true := by
  intro pend
  induction pend with
  | nil => intro k st h; cases h
  | cons id rest ih =>
    intro k st h
    unfold getRunnableGo at h
    split at h
    · cases h
    · split at h
      · rcases ih k st h with ⟨i, hi, hli, hr⟩
        exact ⟨i, List.mem_cons_of_mem _ hi, hli, hr⟩
      · next step hl =>
        split at h
        · next hready =>
          rcases List.mem_cons.mp h with rfl | h'
          · exact ⟨id, List.mem_cons_self _ _, hl, hready⟩
          · rcases ih (k + 1) st h' with ⟨i, hi, hli, hr⟩
            exact ⟨i, List.mem_cons_of_mem _ hi, hli, hr⟩
        · rcases ih k st h with ⟨i, hi, hli, hr⟩
          exact ⟨i, List.mem_cons_of_mem _ hi, hli, hr⟩

theorem grsGo_capped {S : Scheduler} {rc cap : Nat} :
    ∀ (pend : List String) (k : Nat), cap ≤ rc + k →
      getRunnableGo S rc cap pend k = [] := by
  intro pend k h
  cases pend with
  | nil => rfl
  | cons id rest => unfold getRunnableGo; rw [if_pos h]

theorem grsGo_bound {S : Scheduler} {rc cap : Nat} :
    ∀ (pend : List String) (k : Nat),
      getRunnableGo S rc cap pend k ≠ [] →
      rc + k + (getRunnableGo S rc cap pend k).length ≤ cap := by
  intro pend
  induction pend with
  | nil => intro k h; exact absurd rfl h
  | cons id rest ih =>
    intro k h
    unfold getRunnableGo at h ⊢
    split at h
    · exact absurd rfl h
    · next hcap =>
      split at h
      · rw [if_neg hcap]
        exact ih k h
      · next step hl =>
        rw [if_neg hcap]
        split at h
        · next hready =>
          rw [if_pos hready]
          by_cases hrec : getRunnableGo S rc cap rest (k + 1) = []
          · rw [hrec]
            simp only [List.length_cons, List.length_nil]
            omega
          · have := ih (k + 1) hrec
            simp only [List.length_cons]
            omega
        · next hready =>
          rw [if_neg hready]
          exact ih k h

/-- C4 (corrected): every returned step is the step-map entry of a pending
id and all its dependencies are completed; the count bound holds in the
form "if `currentRunning` is already at or above the cap nothing is
returned, and whenever anything is returned the total stays within the
cap" — the unconditional bound of the original claim fails when
`currentRunning > globalCap`. -/
theorem C4_runnable_steps_amended (S : Scheduler) (rc cap : Nat) :
    (∀ st ∈ getRunnableSteps S rc cap,
      (∃ id ∈ S.pendingSteps, lookupA S.stepMap id = some st) ∧
      isStepReady S st = true ∧
      ∀ dep ∈ st.needs.getD [], S.completedSteps.contains dep = true) ∧
    (cap ≤ rc → getRunnableSteps S rc cap = []) ∧
    (getRunnableSteps S rc cap ≠ [] →
      rc + (getRunnableSteps S rc cap).length ≤ cap) := by
  refine ⟨?_, ?_, ?_⟩
  · intro st hst
    rcases grsGo_sound S.pendingSteps 0 st hst with ⟨id, hid, hl, hr⟩
    exact ⟨⟨id, hid, hl⟩, hr, isStepReady_needs hr⟩
  · intro h
    exact grsGo_capped S.pendingSteps 0 (by omega)
  · intro h
    have := grsGo_bound S.pendingSteps 0 h
    unfold getRunnableSteps
    omega

/-- C4 counterexample: with one pending ready step, `currentRunning = 1`
and `globalCap = 0`, the returned list is empty, and the claimed bound
"returned + currentRunning ≤ globalCap" is false. -/
theorem C4_cap_overrun_counterexample :
    ¬ ((getRunnableSteps
          (mkScheduler [⟨("a"), StepType.shell, none⟩] [("a")] []) 1 0).length
        + 1 ≤ 0) := by
  decide

theorem C4_runnable_steps_amended_witness :
    getRunnableSteps (mkScheduler [⟨("a"), StepType.shell, none⟩] [("a")] []) 1 1 = [] ∧
    1 + (getRunnableSteps
          (mkScheduler [⟨("a"), StepType.shell, none⟩] [("a")] []) 1 3).length ≤ 3 := by
  refine ⟨(C4_runnable_steps_amended
      (mkScheduler [⟨("a"), StepType.shell, none⟩] [("a")] []) 1 1).2.1 (by decide),
    (C4_runnable_steps_amended
      (mkScheduler [⟨("a"), StepType.shell, none⟩] [("a")] []) 1 3).2.2 (by decide)⟩

theorem applyMut_pending_subset {S : Scheduler} {m : SchedMut} {x : String}
    (h : x ∈ (applyMut S m).pendingSteps) : x ∈ S.pendingSteps := by
  cases m with
  | start id => exact (mem_setDel.mp h).1
  | complete id => exact (mem_setDel.mp h).1
  | fail id => exact h

theorem applyMuts_pending_subset {x : String} :
    ∀ (ms : List SchedMut) (S : Scheduler),
      x ∉ S.pendingSteps → x ∉ (applyMuts S ms).pendingSteps := by
  intro ms
  induction ms with
  | nil => intro S h; exact h
  | cons m rest ih =>
    intro S h
    exact ih (applyMut S m) (fun hc => h (applyMut_pending_subset hc))

theorem applyMut_disjoint {S : Scheduler} {m : SchedMut}
    (h : pendDisjoint S) : pendDisjoint (applyMut S m) := by
  cases m with
  | start id =>
    intro x hx hr
    rcases mem_setDel.mp hx with ⟨hp, hne⟩
    rcases mem_setAdd.mp hr with hr' | rfl
    · exact h x hp hr'
    · exact hne rfl
  | complete id =>
    intro x hx hr
    exact h x (mem_setDel.mp hx).1 (mem_setDel.mp hr).1
  | fail id =>
    intro x hx hr
    exact h x hx (mem_setDel.mp hr).1

theorem applyMuts_disjoint :
    ∀ (ms : List SchedMut) (S : Scheduler),
      pendDisjoint S → pendDisjoint (applyMuts S ms) := by
  intro ms
  induction ms with
  | nil => intro S h; exact h
  | cons m rest ih => intro S h; exact ih (applyMut S m) (applyMut_disjoint h)

theorem applyMut_stepMap (S : Scheduler) (m : SchedMut) :
    (applyMut S m).stepMap = S.stepMap := by
  cases m <;> rfl

theorem applyMuts_stepMap :
    ∀ (ms : List SchedMut) (S : Scheduler), (applyMuts S ms).stepMap = S.stepMap := by
  intro ms
  induction ms with
  | nil => intro S; rfl
  | cons m rest ih =>
    intro S
    show (applyMuts (applyMut S m) rest).stepMap = S.stepMap
    rw [ih (applyMut S m), applyMut_stepMap]

theorem grs_excludes_nonpending {S : Scheduler} {rc cap : Nat} {x : String}
    (hw : schedWellFormed S) (hx : x ∉ S.pendingSteps) :
    ∀ st ∈ getRunnableSteps S rc cap, st.id ≠ x := by
  intro st hst
  rcases grsGo_sound S.pendingSteps 0 st hst with ⟨id, hid, hl, _⟩
  rw [hw id st hl]
  rintro rfl
  exact hx hid

/-- C9 (corrected): the pending/running sets stay disjoint under every
mutator sequence; `markStepFailed` removes from running and leaves pending
untouched; a step on which `markStepComplete` was called, or which was
started (`startStep`) before any later `markStepFailed`, is never again
returned by `getRunnableSteps`.  The original unconditional claim fails
for `markStepFailed` on a never-started step (see the counterexample): the
step then remains pending and is returned again. -/
theorem C9_scheduler_invariants_amended (S : Scheduler) :
    (pendDisjoint S → ∀ ms : List SchedMut, pendDisjoint (applyMuts S ms)) ∧
    (∀ id, (markStepFailed S id).runningSteps = setDel S.runningSteps id ∧
      (markStepFailed S id).pendingSteps = S.pendingSteps ∧
      (markStepFailed S id).completedSteps = S.completedSteps) ∧
    (∀ x (ms : List SchedMut) (rc cap : Nat), schedWellFormed S →
      ∀ st ∈ getRunnableSteps (applyMuts (markStepComplete S x) ms) rc cap, st.id ≠ x) ∧
    (∀ x (ms : List SchedMut) (rc cap : Nat), schedWellFormed S →
      ∀ st ∈ getRunnableSteps (applyMuts (startStep S x) ms) rc cap, st.id ≠ x) := by
  refine ⟨fun h ms => applyMuts_disjoint ms S h, fun id => ⟨rfl, rfl, rfl⟩, ?_, ?_⟩
  · intro x ms rc cap hw st hst
    have hw' : schedWellFormed (applyMuts (markStepComplete S x) ms) := by
      intro id st' hl
      rw [applyMuts_stepMap ms (markStepComplete S x)] at hl
      exact hw id st' hl
    have hx : x ∉ (applyMuts (markStepComplete S x) ms).pendingSteps := by
      refine applyMuts_pending_subset ms _ ?_
      intro hc
      exact (mem_setDel.mp hc).2 rfl
    exact grs_excludes_nonpending hw' hx st hst
  · intro x ms rc cap hw st hst
    have hw' : schedWellFormed (applyMuts (startStep S x) ms) := by
      intro id st' hl
      rw [applyMuts_stepMap ms (startStep S x)] at hl
      exact hw id st' hl
    have hx : x ∉ (applyMuts (startStep S x) ms).pendingSteps := by
      refine applyMuts_pending_subset ms _ ?_
      intro hc
      exact (mem_setDel.mp hc).2 rfl
    exact grs_excludes_nonpending hw' hx st hst

/-- C9 counterexample: calling `markStepFailed` on a never-started
(pending) step does not remove it from pending, and `getRunnableSteps`
returns it again afterwards. -/
theorem C9_failed_step_returned_counterexample :
    getRunnableSteps
        (applyMuts (mkScheduler [⟨("a"), StepType.shell, none⟩] [("a")] [])
          [SchedMut.fail ("a")]) 0 1 =
      [⟨("a"), StepType.shell, none⟩] := by
  decide

theorem C9_scheduler_invariants_amended_witness :
    ∀ st ∈ getRunnableSteps
        (applyMuts
          (markStepComplete (mkScheduler [⟨("a"), StepType.shell, none⟩] [("a")] []) ("a"))
          [SchedMut.fail ("b")]) 0 5, st.id ≠ ("a") := by
  refine (C9_scheduler_invariants_amended
      (mkScheduler [⟨("a"), StepType.shell, none⟩] [("a")] [])).2.2.1
    ("a") [SchedMut.fail ("b")] 0 5 ?_
  intro id st h
  unfold mkScheduler lookupA at h
  simp only [List.map_cons, List.map_nil] at h
  split at h
  · next heq =>
    cases h
    exact eq_of_beq heq
  · cases h

/-! ### Circuit breaker lemmas (C5) -/

theorem onFailure_opened_absorb {o : CBOpts} {cb : CB} {t : Int}
    (h : cb.state = CState.opened) : (onFailure o cb t).state = CState.opened := by
  unfold onFailure
  simp only [h]

theorem applyFailures_opened_absorb {o : CBOpts} :
    ∀ (ts : List Int) (cb : CB), cb.state = CState.opened →
      (applyFailures o cb ts).state = CState.opened := by
  intro ts
  induction ts with
  | nil => intro cb h; exact h
  | cons t rest ih =>
    intro cb h
    exact ih (onFailure o cb t) (onFailure_opened_absorb h)

theorem applyFailures_trips {o : CBOpts} :
    ∀ (ts : List Int) (cb : CB), cb.state = CState.closed →
      cb.failureCount + ts.length = o.failureThreshold → ts ≠ [] →
      (applyFailures o cb ts).state = CState.opened := by
  intro ts
  induction ts with
  | nil => intro cb _ _ hne; exact absurd rfl hne
  | cons t rest ih =>
    intro cb hcl hcount _
    show (applyFailures o (onFailure o cb t) rest).state = CState.opened
    by_cases hth : o.failureThreshold ≤ cb.failureCount + 1
    · have hopen : (onFailure o cb t).state = CState.opened := by
        unfold onFailure
        simp only [hcl, if_pos hth]
        rfl
      exact applyFailures_opened_absorb rest _ hopen
    · have hcb : (onFailure o cb t).state = CState.closed ∧
          (onFailure o cb t).failureCount = cb.failureCount + 1 := by
        unfold onFailure
        simp only [hcl, if_neg hth]
        exact ⟨trivial, trivial⟩
      have hne : rest ≠ [] := by
        rintro rfl
        simp only [List.length_cons, List.length_nil, Nat.zero_add] at hcount
        omega
      refine ih (onFailure o cb t) hcb.1 ?_ hne
      rw [hcb.2]
      simp only [List.length_cons] at hcount
      omega

theorem onSuccess_closed_absorb {o : CBOpts} {cb : CB}
    (h : cb.state = CState.closed) : (onSuccess o cb).state = CState.closed := by
  unfold onSuccess
  simp only [h]

theorem iterate_onSuccess_closed_absorb {o : CBOpts} :
    ∀ (k : Nat) (cb : CB), cb.state = CState.closed →
      ((fun c => onSuccess o c)^[k] cb).state = CState.closed := by
  intro k
  induction k with
  | zero => intro cb h; exact h
  | succ k ih =>
    intro cb h
    rw [Function.iterate_succ_apply]
    exact ih _ (onSuccess_closed_absorb h)

theorem iterate_onSuccess_closes {o : CBOpts} :
    ∀ (k : Nat) (cb : CB), cb.state = CState.halfOpen →
      cb.successCount + k = o.successThreshold → 1 ≤ k →
      ((fun c => onSuccess o c)^[k] cb).state = CState.closed := by
  intro k
  induction k with
  | zero => intro cb _ _ h; omega
  | succ k ih =>
    intro cb hho hcount _
    rw [Function.iterate_succ_apply]
    by_cases hth : o.successThreshold ≤ cb.successCount + 1
    · have hclosed : (onSuccess o cb).state = CState.closed := by
        unfold onSuccess
        simp only [hho, if_pos hth]
        rfl
      exact iterate_onSuccess_closed_absorb k _ hclosed
    · have hcb : (onSuccess o cb).state = CState.halfOpen ∧
          (onSuccess o cb).successCount = cb.successCount + 1 := by
        unfold onSuccess
        simp only [hho, if_neg hth]
        exact ⟨trivial, trivial⟩
      refine ih (onSuccess o cb) hcb.1 ?_ ?_
      · rw [hcb.2]; omega
      · omega

/-- C5: the circuit breaker state machine — `failureThreshold` consecutive
failures open a fresh breaker; in OPEN, reading `isAllowed` once
`resetTimeout` has elapsed since the last failure yields true and promotes
to HALF_OPEN; from HALF_OPEN, `successThreshold` successes close the
breaker and a single failure reopens it; `execute` rejects without running
its argument when not allowed. -/
theorem C5_circuit_breaker_machine (o : CBOpts)
    (hft : 1 ≤ o.failureThreshold) (hst : 1 ≤ o.successThreshold) :
    (∀ ts : List Int, ts.length = o.failureThreshold →
      (applyFailures o newCB ts).state = CState.opened) ∧
    (∀ (cb : CB) (now : Int), cb.state = CState.opened →
      o.resetTimeout ≤ now - cb.lastFailureTime →
      isAllowed o cb now = (true, transitionTo cb CState.halfOpen) ∧
      (transitionTo cb CState.halfOpen).state = CState.halfOpen) ∧
    (∀ cb : CB, cb.state = CState.halfOpen → cb.successCount = 0 →
      ((fun c => onSuccess o c)^[o.successThreshold] cb).state = CState.closed) ∧
    (∀ (cb : CB) (now : Int), cb.state = CState.halfOpen →
      (onFailure o cb now).state = CState.opened) ∧
    (∀ (cb : CB) (now : Int) (fn : Except String Int),
      (isAllowed o cb now).1 = false →
      executeCB o cb now fn =
        (Except.error ("Circuit breaker is OPEN - request rejected"),
          (isAllowed o cb now).2, false)) := by
  refine ⟨?_, ?_, ?_, ?_, ?_⟩
  · intro ts hlen
    refine applyFailures_trips ts newCB rfl (by simpa [newCB] using hlen) ?_
    rintro rfl
    simp only [List.length_nil] at hlen
    omega
  · intro cb now hop hrt
    constructor
    · unfold isAllowed
      simp only [hop, if_pos hrt]
    · rfl
  · intro cb hho hsc
    exact iterate_onSuccess_closes o.successThreshold cb hho (by omega) hst
  · intro cb now hho
    unfold onFailure
    simp only [hho]
    rfl
  · intro cb now fn h
    simp [executeCB, h]

theorem C5_circuit_breaker_machine_witness :
    ((applyFailures ⟨1, 50, 2⟩ newCB [0]).state = CState.opened ∧
      isAllowed ⟨1, 50, 2⟩ (applyFailures ⟨1, 50, 2⟩ newCB [0]) 60 =
        (true, transitionTo (applyFailures ⟨1, 50, 2⟩ newCB [0]) CState.halfOpen) ∧
      (transitionTo (applyFailures ⟨1, 50, 2⟩ newCB [0]) CState.halfOpen).state =
        CState.halfOpen) ∧
    ((fun c => onSuccess ⟨1, 50, 2⟩ c)^[2]
        (isAllowed ⟨1, 50, 2⟩ (applyFailures ⟨1, 50, 2⟩ newCB [0]) 60).2).state =
      CState.closed := by
  have h := C5_circuit_breaker_machine ⟨1, 50, 2⟩ (by decide) (by decide)
  have h1 : (applyFailures ⟨1, 50, 2⟩ newCB [0]).state = CState.opened :=
    h.1 [0] (by decide)
  have h2 := h.2.1 (applyFailures ⟨1, 50, 2⟩ newCB [0]) 60 h1 (by decide)
  refine ⟨⟨h1, h2.1, h2.2⟩, ?_⟩
  have h3 := h.2.2.1 (isAllowed ⟨1, 50, 2⟩ (applyFailures ⟨1, 50, 2⟩ newCB [0]) 60).2
    (by decide) (by decide)
  exact h3

/-! ### Hydration lemmas (C1, C6) -/

theorem mem_insCmp {v a : ExecRow} :
    ∀ {l : List ExecRow}, a ∈ insCmp v l ↔ a = v ∨ a ∈ l := by
  intro l
  induction l with
  | nil => simp [insCmp]
  | cons y ys ih =>
    unfold insCmp
    split_ifs
    · simp [List.mem_cons]
    · simp only [List.mem_cons, ih]
      tauto

theorem mem_foldl_insCmp :
    ∀ (l : List ExecRow) (acc : List ExecRow) (a : ExecRow),
      a ∈ List.foldl (fun acc v => insCmp v acc) acc l ↔ a ∈ acc ∨ a ∈ l := by
  intro l
  induction l with
  | nil => intro acc a; simp
  | cons v vs ih =>
    intro acc a
    show a ∈ List.foldl (fun acc v => insCmp v acc) (insCmp v acc) vs ↔ _
    rw [ih (insCmp v acc) a, mem_insCmp]
    simp only [List.mem_cons]
    tauto

theorem mem_sortExecs {l : List ExecRow} {a : ExecRow} :
    a ∈ sortExecs l ↔ a ∈ l := by
  unfold sortExecs
  rw [mem_foldl_insCmp l [] a]
  simp

theorem mem_dedupByIdx_sub :
    ∀ (l : List ExecRow) (seen : List Nat) (e : ExecRow),
      e ∈ dedupByIdx seen l → e ∈ l := by
  intro l
  induction l with
  | nil => intro seen e h; cases h
  | cons hd rest ih =>
    intro seen e h
    unfold dedupByIdx at h
    split_ifs at h
    · exact List.mem_cons_of_mem _ (ih seen e h)
    · rcases List.mem_cons.mp h with rfl | h'
      · exact List.mem_cons_self _ _
      · exact List.mem_cons_of_mem _ (ih _ e h')

theorem dedupByIdx_covers :
    ∀ (l : List ExecRow) (seen : List Nat) (i : Nat),
      (∃ e ∈ l, idx0 e = i) → seen.contains i = false →
      ∃ e ∈ dedupByIdx seen l, idx0 e = i := by
  intro l
  induction l with
  | nil => rintro seen i ⟨e, he, _⟩ _; cases he
  | cons hd rest ih =>
    rintro seen i ⟨e, he, hei⟩ hns
    unfold dedupByIdx
    by_cases hc : seen.contains (idx0 hd)
    · rw [if_pos hc]
      rcases List.mem_cons.mp he with rfl | he'
      · rw [hei] at hc
        rw [hc] at hns
        cases hns
      · exact ih seen i ⟨e, he', hei⟩ hns
    · rw [if_neg hc]
      by_cases hhd : idx0 hd = i
      · exact ⟨hd, List.mem_cons_self _ _, hhd⟩
      · rcases List.mem_cons.mp he with rfl | he'
        · exact absurd hei hhd
        · have hns' : (idx0 hd :: seen).contains i = false := by
            simp only [List.contains_cons, Bool.or_eq_false_iff]
            refine ⟨?_, hns⟩
            simpa using fun h : i = idx0 hd => hhd h.symm
          rcases ih (idx0 hd :: seen) i ⟨e, he', hei⟩ hns' with ⟨e', he'', hei'⟩
          exact ⟨e', List.mem_cons_of_mem _ he'', hei'⟩

theorem mem_getStepIterations_dest {db : Db} {inc : Bool} {e : ExecRow}
    (h : e ∈ getStepIterations db inc) :
    ∃ r ∈ db.rows, r.iterIndex.isSome = true ∧ e.iterIndex = r.iterIndex ∧
      e.status = r.status := by
  unfold getStepIterations at h
  rcases List.mem_map.mp h with ⟨r, hr, rfl⟩
  rcases List.mem_filter.mp hr with ⟨hrow, hsome⟩
  refine ⟨r, hrow, hsome, ?_, ?_⟩ <;> by_cases hinc : inc <;> simp [hinc]

theorem getStepIterations_covers {db : Db} {inc : Bool} {r : ExecRow} {i : Nat}
    (hr : r ∈ db.rows) (hi : r.iterIndex = some i) :
    ∃ e ∈ getStepIterations db inc, e.iterIndex = some i := by
  unfold getStepIterations
  refine ⟨if inc then r else { r with output := none }, ?_, ?_⟩
  · exact List.mem_map.mpr ⟨r, List.mem_filter.mpr ⟨hr, by rw [hi]; rfl⟩, rfl⟩
  · by_cases hinc : inc <;> simp [hinc, hi]

theorem mem_itemsAssocGo_key {isL : Bool} :
    ∀ (uniq : List ExecRow) (acc : List (Nat × ItemCtx)) (p : Nat × ItemCtx),
      p ∈ uniq.foldl
        (fun acc e =>
          match e.iterIndex with
          | none => acc
          | some i => acc ++ [(i, iterItem isL e)]) acc →
      p ∈ acc ∨ ∃ e ∈ uniq, e.iterIndex = some p.1 := by
  intro uniq
  induction uniq with
  | nil => intro acc p h; exact Or.inl h
  | cons hd rest ih =>
    intro acc p h
    rcases ih _ p h with h' | ⟨e, he, hei⟩
    · rcases hhd : hd.iterIndex with _ | i <;> simp only [hhd] at h'
      · exact Or.inl h'
      · rcases List.mem_append.mp h' with h'' | h''
        · exact Or.inl h''
        · rcases List.mem_singleton.mp h''
          exact Or.inr ⟨hd, List.mem_cons_self _ _, hhd⟩
    · exact Or.inr ⟨e, List.mem_cons_of_mem _ he, hei⟩

theorem itemsAssocGo_mono {isL : Bool} :
    ∀ (uniq : List ExecRow) (acc : List (Nat × ItemCtx)) (p : Nat × ItemCtx),
      p ∈ acc →
      p ∈ uniq.foldl
        (fun acc e =>
          match e.iterIndex with
          | none => acc
          | some i => acc ++ [(i, iterItem isL e)]) acc := by
  intro uniq
  induction uniq with
  | nil => intro acc p h; exact h
  | cons hd rest ih =>
    intro acc p h
    refine ih _ p ?_
    rcases hhd : hd.iterIndex with _ | i <;> simp only [hhd]
    · exact h
    · exact List.mem_append.mpr (Or.inl h)

theorem itemsAssoc_covers {isL : Bool} :
    ∀ (uniq : List ExecRow) (acc : List (Nat × ItemCtx)) (e : ExecRow) (i : Nat),
      e ∈ uniq → e.iterIndex = some i →
      ∃ c, (i, c) ∈ uniq.foldl
        (fun acc e =>
          match e.iterIndex with
          | none => acc
          | some i => acc ++ [(i, iterItem isL e)]) acc := by
  intro uniq
  induction uniq with
  | nil => intro acc e i h; cases h
  | cons hd rest ih =>
    intro acc e i he hei
    rcases List.mem_cons.mp he with rfl | he'
    · refine ⟨iterItem isL e, ?_⟩
      refine itemsAssocGo_mono rest _ _ ?_
      simp only [hei]
      exact List.mem_append.mpr (Or.inr (List.mem_singleton.mpr rfl))
    · exact ih _ e i he' hei

theorem foldlMax_init_le :
    ∀ (assoc : List (Nat × ItemCtx)) (m : Nat),
      m ≤ assoc.foldl (fun m p => max m (p.1 + 1)) m := by
  intro assoc
  induction assoc with
  | nil => intro m; exact Nat.le_refl m
  | cons p rest ih =>
    intro m
    exact Nat.le_trans (Nat.le_max_left m (p.1 + 1)) (ih (max m (p.1 + 1)))

theorem foldlMax_le {N : Nat} :
    ∀ (assoc : List (Nat × ItemCtx)) (m : Nat), m ≤ N →
      (∀ p ∈ assoc, p.1 + 1 ≤ N) →
      assoc.foldl (fun m p => max m (p.1 + 1)) m ≤ N := by
  intro assoc
  induction assoc with
  | nil => intro m hm _; exact hm
  | cons p rest ih =>
    intro m hm hall
    refine ih (max m (p.1 + 1)) ?_ ?_
    · exact Nat.max_le.mpr ⟨hm, hall p (List.mem_cons_self _ _)⟩
    · intro q hq
      exact hall q (List.mem_cons_of_mem _ hq)

theorem le_foldlMax_of_mem :
    ∀ (assoc : List (Nat × ItemCtx)) (m : Nat) (p : Nat × ItemCtx), p ∈ assoc →
      p.1 + 1 ≤ assoc.foldl (fun m p => max m (p.1 + 1)) m := by
  intro assoc
  induction assoc with
  | nil => intro m p h; cases h
  | cons q rest ih =>
    intro m p hp
    rcases List.mem_cons.mp hp with rfl | hp'
    · exact Nat.le_trans (Nat.le_max_right m (p.1 + 1)) (foldlMax_init_le rest _)
    · exact ih (max m (q.1 + 1)) p hp'

theorem resolveExpected_noThrow {o : Option Json} {f : Except Unit Json} {n : Nat}
    (h : (resolveExpected o f).1 = some n) : (resolveExpected o f).2.2 = true := by
  unfold resolveExpected at h ⊢
  rcases hp : persistedForeachItems o with _ | items
  · rw [hp] at h
    rcases f with e | j
    · simp at h
    · rcases j <;> simp_all
  · rfl

theorem mem_dbUniq_dest {db : Db} {e : ExecRow} (h : e ∈ dbUniq db) :
    ∃ r ∈ db.rows, r.iterIndex.isSome = true ∧ e.iterIndex = r.iterIndex ∧
      e.status = r.status :=
  mem_getStepIterations_dest (mem_sortExecs.mp (mem_dedupByIdx_sub _ _ _ h))

theorem dbAllRowsOk_true {db : Db}
    (hrows : ∀ r ∈ db.rows, r.iterIndex.isSome = true →
      (r.status = StepStatus.success ∨ r.status = StepStatus.skipped)) :
    dbAllRowsOk db = true := by
  unfold dbAllRowsOk
  rw [List.all_eq_true]
  intro e he
  rcases mem_dbUniq_dest he with ⟨r, hr, hsome, _, hst⟩
  rcases hrows r hr hsome with h | h <;> rw [hst, h] <;> simp

theorem mem_dbUniq_isSome {db : Db} {e : ExecRow} (h : e ∈ dbUniq db) :
    e.iterIndex = some (idx0 e) := by
  rcases mem_dbUniq_dest h with ⟨r, _, hsome, hidx, _⟩
  rcases hr : r.iterIndex with _ | j
  · rw [hr] at hsome; cases hsome
  · rw [hr] at hidx
    rw [hidx]
    unfold idx0
    rw [hidx]
    rfl

theorem dbLen_le {db : Db} {N : Nat}
    (hlt : ∀ r ∈ db.rows, ∀ i, r.iterIndex = some i → i < N) :
    dbLen db ≤ N := by
  unfold dbLen itemsLen
  refine foldlMax_le (dbAssoc db) 0 (Nat.zero_le N) ?_
  intro p hp
  rcases mem_itemsAssocGo_key (dbUniq db) [] p hp with h | ⟨e, he, hei⟩
  · cases h
  · rcases mem_dbUniq_dest he with ⟨r, hr, _, hidx, _⟩
    rw [hei] at hidx
    exact hlt r hr p.1 hidx.symm

theorem le_dbLen {db : Db} {i : Nat}
    (h : ∃ r ∈ db.rows, r.iterIndex = some i) : i + 1 ≤ dbLen db := by
  rcases h with ⟨r, hr, hi⟩
  rcases @getStepIterations_covers db (!dbIsLarge db) r i hr hi with ⟨e, he, hei⟩
  have hsort : e ∈ sortExecs (dbExecs db) := mem_sortExecs.mpr he
  have hidx : idx0 e = i := by unfold idx0; rw [hei]; rfl
  rcases dedupByIdx_covers (sortExecs (dbExecs db)) [] i ⟨e, hsort, hidx⟩ rfl
    with ⟨e', he', hei'⟩
  have hsome' : e'.iterIndex = some i := by
    rw [← hei']
    exact mem_dbUniq_isSome he'
  rcases @itemsAssoc_covers (dbIsLarge db) (dbUniq db) [] e' i he' hsome'
    with ⟨c, hc⟩
  exact le_foldlMax_of_mem (dbAssoc db) 0 (i, c) hc

theorem dbLen_eq {db : Db} {N : Nat}
    (hlt : ∀ r ∈ db.rows, ∀ i, r.iterIndex = some i → i < N)
    (hcov : ∀ i, i < N → ∃ r ∈ db.rows, r.iterIndex = some i) :
    dbLen db = N := by
  rcases N with _ | n
  · exact Nat.le_zero.mp (dbLen_le hlt)
  · refine Nat.le_antisymm (dbLen_le hlt) ?_
    exact le_dbLen (hcov n (Nat.lt_succ_self n))

/-- C1: hydrating a foreach step whose parent row is still `running` or
`pending` while every expected iteration row (indices `0..N-1`) is
`success` or `skipped` reconstructs the in-memory status as `success`,
and the trace of store operations `restore()` performs contains no write,
so the persisted parent row is unchanged. -/
theorem C1_foreach_promotion_is_derived (db : Db) (feval : Except Unit Json)
    (mainExec : ExecRow) (N : Nat)
    (hmain : getMainStep db = some mainExec)
    (hst : mainExec.status = StepStatus.running ∨ mainExec.status = StepStatus.pending)
    (hexp : (resolveExpected mainExec.output feval).1 = some N)
    (hrows : ∀ r ∈ db.rows, r.iterIndex.isSome = true →
      (r.status = StepStatus.success ∨ r.status = StepStatus.skipped))
    (hlt : ∀ r ∈ db.rows, ∀ i, r.iterIndex = some i → i < N)
    (hcov : ∀ i, i < N → ∃ r ∈ db.rows, r.iterIndex = some i) :
    (restoreForeach db feval mainExec).1.status = StepStatus.success ∧
    (∀ op ∈ (restoreForeach db feval mainExec).2, op.isWrite = false) ∧
    applyDbOps db (restoreForeach db feval mainExec).2 = db := by
  have hnot : ¬ (mainExec.status = StepStatus.success ∨
      mainExec.status = StepStatus.skipped) := by
    rcases hst with h | h <;> rw [h] <;> rintro (h' | h') <;> cases h'
  unfold restoreForeach
  rw [if_neg hnot]
  refine ⟨?_, ?_, rfl⟩
  · show promoteStatus mainExec.status
      (dbAllRowsOk db && (resolveExpected mainExec.output feval).2.2)
      (hasAllItemsB (resolveExpected mainExec.output feval).1 (dbLen db)) =
      StepStatus.success
    rw [dbAllRowsOk_true hrows, resolveExpected_noThrow hexp, hexp, dbLen_eq hlt hcov]
    have hall : hasAllItemsB (some N) N = true := by
      simp [hasAllItemsB]
    rw [hall]
    rcases hst with h | h <;> rw [h] <;> rfl
  · intro op hop
    rcases List.mem_cons.mp hop with rfl | hop'
    · rfl
    · rcases List.mem_cons.mp hop' with rfl | hop''
      · rfl
      · rcases List.mem_cons.mp hop'' with rfl | hop'''
        · rfl
        · cases hop'''

theorem C1_foreach_promotion_is_derived_witness :
    (getMainStep exDb1 = some exMain1 ∧
      exMain1.status = StepStatus.running ∧
      (resolveExpected exMain1.output (Except.ok Json.null)).1 = some 3) ∧
    (restoreForeach exDb1 (Except.ok Json.null) exMain1).1.status = StepStatus.success ∧
    applyDbOps exDb1 (restoreForeach exDb1 (Except.ok Json.null) exMain1).2 = exDb1 := by
  have h := C1_foreach_promotion_is_derived exDb1 (Except.ok Json.null) exMain1 3
    rfl (Or.inl rfl) (by decide) (by decide) (by decide) (by decide)
  exact ⟨⟨rfl, rfl, by decide⟩, h.1, h.2.2⟩

/-- C6: when the persisted iteration count exceeds 500, hydration of a
not-yet-completed foreach step fetches the iteration rows with
`includeOutput: false` and rebuilds the context with the empty aggregate
`output: []`, `outputs: {}`. -/
theorem C6_large_foreach_drops_outputs (db : Db) (feval : Except Unit Json)
    (mainExec : ExecRow)
    (hst : ¬ (mainExec.status = StepStatus.success ∨
      mainExec.status = StepStatus.skipped))
    (hcount : 500 < countStepIterations db) :
    (restoreForeach db feval mainExec).1.output = [] ∧
    (restoreForeach db feval mainExec).1.outputs = [] ∧
    (restoreForeach db feval mainExec).2 =
      [DbOp.readMainStep, DbOp.readIterationCount, DbOp.readIterations false] := by
  have hlarge : dbIsLarge db = true := by
    unfold dbIsLarge
    simpa using hcount
  unfold restoreForeach
  rw [if_neg hst]
  unfold restoreForeachIncomplete
  rw [hlarge]
  exact ⟨rfl, rfl, rfl⟩

theorem C6_large_foreach_drops_outputs_witness :
    (500 < countStepIterations exDb501 ∧
      exMain501.status = StepStatus.running) ∧
    (restoreForeach exDb501 (Except.ok Json.null) exMain501).1.output = [] ∧
    (restoreForeach exDb501 (Except.ok Json.null) exMain501).1.outputs = [] := by
  have h := C6_large_foreach_drops_outputs exDb501 (Except.ok Json.null) exMain501
    (by decide) (by decide)
  exact ⟨⟨by decide, rfl⟩, h.1, h.2.1⟩

/-! ### UTF-8 decoder step lemmas (C8) -/

theorem dcAscii {b : Nat} (h : leadClass b = LeadClass.ascii) (rest : List Nat) :
    decodeCore (b :: rest) = (b :: (decodeCore rest).1, (decodeCore rest).2) := by
  rw [decodeCore.eq_def]
  dsimp only
  rw [h]

theorem dcCont {b : Nat} (h : leadClass b = LeadClass.cont) (rest : List Nat) :
    decodeCore (b :: rest) = (repChar :: (decodeCore rest).1, (decodeCore rest).2) := by
  rw [decodeCore.eq_def]
  dsimp only
  rw [h]

theorem dcBad {b : Nat} (h : leadClass b = LeadClass.bad) (rest : List Nat) :
    decodeCore (b :: rest) = (repChar :: (decodeCore rest).1, (decodeCore rest).2) := by
  rw [decodeCore.eq_def]
  dsimp only
  rw [h]

theorem dcTwoNil {b : Nat} (h : leadClass b = LeadClass.two) :
    decodeCore [b] = ([], [b]) := by
  rw [decodeCore.eq_def]
  dsimp only
  rw [h]

theorem dcTwoOk {b b1 : Nat} (h : leadClass b = LeadClass.two) (r2 : List Nat)
    (hc : (contOk b1 && seqOk2 ((b - 0xC0) * 64 + (b1 - 0x80))) = true) :
    decodeCore (b :: b1 :: r2) =
      (((b - 0xC0) * 64 + (b1 - 0x80)) :: (decodeCore r2).1, (decodeCore r2).2) := by
  rw [decodeCore.eq_def]
  dsimp only
  rw [h]
  dsimp only
  rw [if_pos hc]

theorem dcTwoBad {b b1 : Nat} (h : leadClass b = LeadClass.two) (r2 : List Nat)
    (hc : (contOk b1 && seqOk2 ((b - 0xC0) * 64 + (b1 - 0x80))) = false) :
    decodeCore (b :: b1 :: r2) =
      (repChar :: (decodeCore (b1 :: r2)).1, (decodeCore (b1 :: r2)).2) := by
  rw [decodeCore.eq_def]
  dsimp only
  rw [h]
  dsimp only
  rw [hc]
  simp

theorem dcThreeNil {b : Nat} (h : leadClass b = LeadClass.three) :
    decodeCore [b] = ([], [b]) := by
  rw [decodeCore.eq_def]
  dsimp only
  rw [h]

theorem dcThreeOne {b b1 : Nat} (h : leadClass b = LeadClass.three) :
    decodeCore [b, b1] = ([], [b, b1]) := by
  rw [decodeCore.eq_def]
  dsimp only
  rw [h]

theorem dcThreeOk {b b1 b2 : Nat} (h : leadClass b = LeadClass.three) (r3 : List Nat)
    (hc : (contOk b1 && contOk b2 &&
      seqOk3 ((b - 0xE0) * 4096 + (b1 - 0x80) * 64 + (b2 - 0x80))) = true) :
    decodeCore (b :: b1 :: b2 :: r3) =
      (((b - 0xE0) * 4096 + (b1 - 0x80) * 64 + (b2 - 0x80)) :: (decodeCore r3).1,
        (decodeCore r3).2) := by
  rw [decodeCore.eq_def]
  dsimp only
  rw [h]
  dsimp only
  rw [if_pos hc]

theorem dcThreeBad {b b1 b2 : Nat} (h : leadClass b = LeadClass.three) (r3 : List Nat)
    (hc : (contOk b1 && contOk b2 &&
      seqOk3 ((b - 0xE0) * 4096 + (b1 - 0x80) * 64 + (b2 - 0x80))) = false) :
    decodeCore (b :: b1 :: b2 :: r3) =
      (repChar :: (decodeCore (b1 :: b2 :: r3)).1, (decodeCore (b1 :: b2 :: r3)).2) := by
  rw [decodeCore.eq_def]
  dsimp only
  rw [h]
  dsimp only
  rw [hc]
  simp

theorem dcFourNil {b : Nat} (h : leadClass b = LeadClass.four) :
    decodeCore [b] = ([], [b]) := by
  rw [decodeCore.eq_def]
  dsimp only
  rw [h]

theorem dcFourOne {b b1 : Nat} (h : leadClass b = LeadClass.four) :
    decodeCore [b, b1] = ([], [b, b1]) := by
  rw [decodeCore.eq_def]
  dsimp only
  rw [h]

theorem dcFourTwo {b b1 b2 : Nat} (h : leadClass b = LeadClass.four) :
    decodeCore [b, b1, b2] = ([], [b, b1, b2]) := by
  rw [decodeCore.eq_def]
  dsimp only
  rw [h]

theorem dcFourOk {b b1 b2 b3 : Nat} (h : leadClass b = LeadClass.four) (r4 : List Nat)
    (hc : (contOk b1 && contOk b2 && contOk b3 &&
      seqOk4 ((b - 0xF0) * 262144 + (b1 - 0x80) * 4096 + (b2 - 0x80) * 64 + (b3 - 0x80)))
      = true) :
    decodeCore (b :: b1 :: b2 :: b3 :: r4) =
      (((b - 0xF0) * 262144 + (b1 - 0x80) * 4096 + (b2 - 0x80) * 64 + (b3 - 0x80)) ::
        (decodeCore r4).1, (decodeCore r4).2) := by
  rw [decodeCore.eq_def]
  dsimp only
  rw [h]
  dsimp only
  rw [if_pos hc]

theorem dcFourBad {b b1 b2 b3 : Nat} (h : leadClass b = LeadClass.four) (r4 : List Nat)
    (hc : (contOk b1 && contOk b2 && contOk b3 &&
      seqOk4 ((b - 0xF0) * 262144 + (b1 - 0x80) * 4096 + (b2 - 0x80) * 64 + (b3 - 0x80)))
      = false) :
    decodeCore (b :: b1 :: b2 :: b3 :: r4) =
      (repChar :: (decodeCore (b1 :: b2 :: b3 :: r4)).1,
        (decodeCore (b1 :: b2 :: b3 :: r4)).2) := by
  rw [decodeCore.eq_def]
  dsimp only
  rw [h]
  dsimp only
  rw [hc]
  simp

theorem dcNil : decodeCore ([] : List Nat) = ([], []) := rfl

/-- Greedy incremental decoding is compositional: decoding `B ++ C` is
decoding `B`, then decoding its buffered tail prepended to `C`. -/
theorem decodeCore_append (B : List Nat) :
    ∀ C : List Nat,
      decodeCore (B ++ C) =
        ((decodeCore B).1 ++ (decodeCore ((decodeCore B).2 ++ C)).1,
          (decodeCore ((decodeCore B).2 ++ C)).2) := by
  induction B using decodeCore.induct with
  | case1 =>
    intro C
    rw [dcNil]
    simp
  | case2 b l h ih =>
    intro C
    rw [List.cons_append, dcAscii h (l ++ C), dcAscii h l, ih C]
    simp
  | case3 b l h ih =>
    intro C
    rw [List.cons_append, dcCont h (l ++ C), dcCont h l, ih C]
    simp
  | case4 b l h ih =>
    intro C
    rw [List.cons_append, dcBad h (l ++ C), dcBad h l, ih C]
    simp
  | case5 b h =>
    intro C
    rw [dcTwoNil h]
    simp
  | case6 b b1 r2 h cp hc ih =>
    intro C
    rw [List.cons_append, List.cons_append, dcTwoOk h (r2 ++ C) hc, dcTwoOk h r2 hc,
      ih C]
    simp
  | case7 b b1 r2 h cp hc ih =>
    intro C
    have hc' : (contOk b1 && seqOk2 ((b - 0xC0) * 64 + (b1 - 0x80))) = false := by
      revert hc
      cases (contOk b1 && seqOk2 ((b - 0xC0) * 64 + (b1 - 0x80))) <;> simp
    have ih' := ih C
    rw [List.cons_append] at ih'
    rw [List.cons_append, List.cons_append, dcTwoBad h (r2 ++ C) hc',
      dcTwoBad h r2 hc', ih']
    simp
  | case8 b h =>
    intro C
    rw [dcThreeNil h]
    simp
  | case9 b b1 h =>
    intro C
    rw [dcThreeOne h]
    simp
  | case10 b b1 b2 r3 h cp hc ih =>
    intro C
    rw [List.cons_append, List.cons_append, List.cons_append,
      dcThreeOk h (r3 ++ C) hc, dcThreeOk h r3 hc, ih C]
    simp
  | case11 b b1 b2 r3 h cp hc ih =>
    intro C
    have hc' : (contOk b1 && contOk b2 &&
        seqOk3 ((b - 0xE0) * 4096 + (b1 - 0x80) * 64 + (b2 - 0x80))) = false := by
      revert hc
      cases (contOk b1 && contOk b2 &&
        seqOk3 ((b - 0xE0) * 4096 + (b1 - 0x80) * 64 + (b2 - 0x80))) <;> simp
    have ih' := ih C
    rw [List.cons_append, List.cons_append] at ih'
    rw [List.cons_append, List.cons_append, List.cons_append,
      dcThreeBad h (r3 ++ C) hc', dcThreeBad h r3 hc', ih']
    simp
  | case12 b h =>
    intro C
    rw [dcFourNil h]
    simp
  | case13 b b1 h =>
    intro C
    rw [dcFourOne h]
    simp
  | case14 b b1 b2 h =>
    intro C
    rw [dcFourTwo h]
    simp
  | case15 b b1 b2 b3 r4 h cp hc ih =>
    intro C
    rw [List.cons_append, List.cons_append, List.cons_append, List.cons_append,
      dcFourOk h (r4 ++ C) hc, dcFourOk h r4 hc, ih C]
    simp
  | case16 b b1 b2 b3 r4 h cp hc ih =>
    intro C
    have hc' : (contOk b1 && contOk b2 && contOk b3 &&
        seqOk4 ((b - 0xF0) * 262144 + (b1 - 0x80) * 4096 + (b2 - 0x80) * 64 + (b3 - 0x80)))
        = false := by
      revert hc
      cases (contOk b1 && contOk b2 && contOk b3 &&
        seqOk4 ((b - 0xF0) * 262144 + (b1 - 0x80) * 4096 + (b2 - 0x80) * 64 + (b3 - 0x80)))
        <;> simp
    have ih' := ih C
    rw [List.cons_append, List.cons_append, List.cons_append] at ih'
    rw [List.cons_append, List.cons_append, List.cons_append, List.cons_append,
      dcFourBad h (r4 ++ C) hc', dcFourBad h r4 hc', ih']
    simp

theorem leadClass_ascii_lt {b : Nat} (h : leadClass b = LeadClass.ascii) :
    b < 0x80 := by
  unfold leadClass at h
  split_ifs at h <;> simp_all

theorem mk_leadClass_two {b : Nat} (h1 : 0xC0 ≤ b) (h2 : b < 0xE0) :
    leadClass b = LeadClass.two := by
  unfold leadClass
  rw [if_neg (by omega), if_neg (by omega), if_pos h2]

theorem mk_leadClass_three {b : Nat} (h1 : 0xE0 ≤ b) (h2 : b < 0xF0) :
    leadClass b = LeadClass.three := by
  unfold leadClass
  rw [if_neg (by omega), if_neg (by omega), if_neg (by omega), if_pos h2]

theorem mk_leadClass_four {b : Nat} (h1 : 0xF0 ≤ b) (h2 : b < 0xF8) :
    leadClass b = LeadClass.four := by
  unfold leadClass
  rw [if_neg (by omega), if_neg (by omega), if_neg (by omega), if_neg (by omega),
    if_pos h2]

theorem isScalar_of_bounds {c : Nat} (h1 : c < 0x110000)
    (h2 : ¬(0xD800 ≤ c ∧ c < 0xE000)) : isScalar c = true := by
  unfold isScalar
  simp only [Bool.and_eq_true, Bool.not_eq_true', Bool.and_eq_false_iff,
    decide_eq_true_iff, decide_eq_false_iff_not]
  exact ⟨h1, by omega⟩

/-- Every code point `decodeCore` emits is a Unicode scalar value. -/
theorem decodeCore_scalars (B : List Nat) :
    ∀ x ∈ (decodeCore B).1, isScalar x = true := by
  induction B using decodeCore.induct with
  | case1 => intro x hx; rw [dcNil] at hx; cases hx
  | case2 b l h ih =>
    intro x hx
    rw [dcAscii h l] at hx
    rcases List.mem_cons.mp hx with rfl | hx'
    · exact isScalar_of_bounds (by have := leadClass_ascii_lt h; omega)
        (by have := leadClass_ascii_lt h; omega)
    · exact ih x hx'
  | case3 b l h ih =>
    intro x hx
    rw [dcCont h l] at hx
    rcases List.mem_cons.mp hx with rfl | hx'
    · decide
    · exact ih x hx'
  | case4 b l h ih =>
    intro x hx
    rw [dcBad h l] at hx
    rcases List.mem_cons.mp hx with rfl | hx'
    · decide
    · exact ih x hx'
  | case5 b h => intro x hx; rw [dcTwoNil h] at hx; cases hx
  | case6 b b1 r2 h cp hc ih =>
    intro x hx
    rw [dcTwoOk h r2 hc] at hx
    rcases List.mem_cons.mp hx with rfl | hx'
    · have h2 : seqOk2 ((b - 0xC0) * 64 + (b1 - 0x80)) = true := by
        have hc2 := hc
        simp only [Bool.and_eq_true] at hc2
        exact hc2.2
      unfold seqOk2 at h2
      simp only [Bool.and_eq_true, decide_eq_true_iff] at h2
      exact isScalar_of_bounds (by omega) (by omega)
    · exact ih x hx'
  | case7 b b1 r2 h cp hc ih =>
    intro x hx
    have hc' : (contOk b1 && seqOk2 ((b - 0xC0) * 64 + (b1 - 0x80))) = false := by
      revert hc
      cases (contOk b1 && seqOk2 ((b - 0xC0) * 64 + (b1 - 0x80))) <;> simp
    rw [dcTwoBad h r2 hc'] at hx
    rcases List.mem_cons.mp hx with rfl | hx'
    · decide
    · exact ih x hx'
  | case8 b h => intro x hx; rw [dcThreeNil h] at hx; cases hx
  | case9 b b1 h => intro x hx; rw [dcThreeOne h] at hx; cases hx
  | case10 b b1 b2 r3 h cp hc ih =>
    intro x hx
    rw [dcThreeOk h r3 hc] at hx
    rcases List.mem_cons.mp hx with rfl | hx'
    · have h3 : seqOk3 ((b - 0xE0) * 4096 + (b1 - 0x80) * 64 + (b2 - 0x80)) = true := by
        have hc2 := hc
        simp only [Bool.and_eq_true] at hc2
        exact hc2.2
      unfold seqOk3 at h3
      simp only [Bool.and_eq_true, Bool.not_eq_true', Bool.and_eq_false_iff,
        decide_eq_true_iff, decide_eq_false_iff_not] at h3
      refine isScalar_of_bounds (by omega) ?_
      rcases h3 with ⟨⟨_, _⟩, h3r⟩
      rcases h3r with h | h <;> omega
    · exact ih x hx'
  | case11 b b1 b2 r3 h cp hc ih =>
    intro x hx
    have hc' : (contOk b1 && contOk b2 &&
        seqOk3 ((b - 0xE0) * 4096 + (b1 - 0x80) * 64 + (b2 - 0x80))) = false := by
      revert hc
      cases (contOk b1 && contOk b2 &&
        seqOk3 ((b - 0xE0) * 4096 + (b1 - 0x80) * 64 + (b2 - 0x80))) <;> simp
    rw [dcThreeBad h r3 hc'] at hx
    rcases List.mem_cons.mp hx with rfl | hx'
    · decide
    · exact ih x hx'
  | case12 b h => intro x hx; rw [dcFourNil h] at hx; cases hx
  | case13 b b1 h => intro x hx; rw [dcFourOne h] at hx; cases hx
  | case14 b b1 b2 h => intro x hx; rw [dcFourTwo h] at hx; cases hx
  | case15 b b1 b2 b3 r4 h cp hc ih =>
    intro x hx
    rw [dcFourOk h r4 hc] at hx
    rcases List.mem_cons.mp hx with rfl | hx'
    · have h4 : seqOk4
          ((b - 0xF0) * 262144 + (b1 - 0x80) * 4096 + (b2 - 0x80) * 64 + (b3 - 0x80))
          = true := by
        have hc2 := hc
        simp only [Bool.and_eq_true] at hc2
        exact hc2.2
      unfold seqOk4 at h4
      simp only [Bool.and_eq_true, decide_eq_true_iff] at h4
      exact isScalar_of_bounds (by omega) (by omega)
    · exact ih x hx'
  | case16 b b1 b2 b3 r4 h cp hc ih =>
    intro x hx
    have hc' : (contOk b1 && contOk b2 && contOk b3 &&
        seqOk4 ((b - 0xF0) * 262144 + (b1 - 0x80) * 4096 + (b2 - 0x80) * 64 + (b3 - 0x80)))
        = false := by
      revert hc
      cases (contOk b1 && contOk b2 && contOk b3 &&
        seqOk4 ((b - 0xF0) * 262144 + (b1 - 0x80) * 4096 + (b2 - 0x80) * 64 + (b3 - 0x80)))
        <;> simp
    rw [dcFourBad h r4 hc'] at hx
    rcases List.mem_cons.mp hx with rfl | hx'
    · decide
    · exact ih x hx'

/-- Decoding the UTF-8 encoding of one scalar prepended to any byte tail
yields that scalar followed by the decode of the tail. -/
theorem decodeCore_encodeChar {c : Nat} (hs : isScalar c = true) (rest : List Nat) :
    decodeCore (utf8EncodeChar c ++ rest) =
      (c :: (decodeCore rest).1, (decodeCore rest).2) := by
  have hs' : c < 0x110000 ∧ ¬(0xD800 ≤ c ∧ c < 0xE000) := by
    unfold isScalar at hs
    simp only [Bool.and_eq_true, Bool.not_eq_true', Bool.and_eq_false_iff,
      decide_eq_true_iff, decide_eq_false_iff_not] at hs
    rcases hs with ⟨h1, h2⟩
    refine ⟨h1, ?_⟩
    rcases h2 with h | h <;> omega
  unfold utf8EncodeChar
  by_cases h1 : c < 0x80
  · rw [if_pos h1, List.singleton_append,
      dcAscii (by unfold leadClass; rw [if_pos h1]) rest]
  · rw [if_neg h1]
    by_cases h2 : c < 0x800
    · rw [if_pos h2]
      have hlc : leadClass (0xC0 + c / 64) = LeadClass.two :=
        mk_leadClass_two (by omega) (by omega)
      have hcp : (0xC0 + c / 64 - 0xC0) * 64 + (0x80 + c % 64 - 0x80) = c := by omega
      have hcond : (contOk (0x80 + c % 64) &&
          seqOk2 ((0xC0 + c / 64 - 0xC0) * 64 + (0x80 + c % 64 - 0x80))) = true := by
        unfold contOk seqOk2
        rw [hcp]
        simp only [Bool.and_eq_true, decide_eq_true_iff]
        omega
      rw [List.cons_append, List.cons_append, List.nil_append,
        dcTwoOk hlc rest hcond, hcp]
    · rw [if_neg h2]
      by_cases h3 : c < 0x10000
      · rw [if_pos h3]
        have hlc : leadClass (0xE0 + c / 4096) = LeadClass.three :=
          mk_leadClass_three (by omega) (by omega)
        have hcp : (0xE0 + c / 4096 - 0xE0) * 4096 + (0x80 + c / 64 % 64 - 0x80) * 64 +
            (0x80 + c % 64 - 0x80) = c := by omega
        have hcond : (contOk (0x80 + c / 64 % 64) && contOk (0x80 + c % 64) &&
            seqOk3 ((0xE0 + c / 4096 - 0xE0) * 4096 + (0x80 + c / 64 % 64 - 0x80) * 64 +
              (0x80 + c % 64 - 0x80))) = true := by
          unfold contOk seqOk3
          rw [hcp]
          simp only [Bool.and_eq_true, Bool.not_eq_true', Bool.and_eq_false_iff,
            decide_eq_true_iff, decide_eq_false_iff_not]
          refine ⟨⟨⟨by omega, by omega⟩, by omega, by omega⟩, ⟨by omega, by omega⟩, ?_⟩
          rcases Nat.lt_or_ge c 0xD800 with h | h
          · exact Or.inl (by omega)
          · exact Or.inr (by rcases hs' with ⟨_, hns⟩; omega)
        rw [List.cons_append, List.cons_append, List.cons_append, List.nil_append,
          dcThreeOk hlc rest hcond, hcp]
      · rw [if_neg h3]
        have hlc : leadClass (0xF0 + c / 262144) = LeadClass.four :=
          mk_leadClass_four (by omega) (by omega)
        have hcp : (0xF0 + c / 262144 - 0xF0) * 262144 +
            (0x80 + c / 4096 % 64 - 0x80) * 4096 +
            (0x80 + c / 64 % 64 - 0x80) * 64 + (0x80 + c % 64 - 0x80) = c := by omega
        have hcond : (contOk (0x80 + c / 4096 % 64) && contOk (0x80 + c / 64 % 64) &&
            contOk (0x80 + c % 64) &&
            seqOk4 ((0xF0 + c / 262144 - 0xF0) * 262144 +
              (0x80 + c / 4096 % 64 - 0x80) * 4096 +
              (0x80 + c / 64 % 64 - 0x80) * 64 + (0x80 + c % 64 - 0x80))) = true := by
          unfold contOk seqOk4
          rw [hcp]
          simp only [Bool.and_eq_true, decide_eq_true_iff]
          rcases hs' with ⟨hub, _⟩
          refine ⟨⟨⟨⟨by omega, by omega⟩, by omega, by omega⟩, by omega, by omega⟩,
            by omega, by omega⟩
        rw [List.cons_append, List.cons_append, List.cons_append, List.cons_append,
          List.nil_append, dcFourOk hlc rest hcond, hcp]

/-- Decoding the UTF-8 encoding of a scalar sequence recovers it exactly,
with an empty buffered tail. -/
theorem decodeCore_encode :
    ∀ cps : List Nat, (∀ c ∈ cps, isScalar c = true) →
      decodeCore (utf8Encode cps) = (cps, []) := by
  intro cps
  induction cps with
  | nil => intro _; rfl
  | cons c rest ih =>
    intro hall
    have henc : utf8Encode (c :: rest) = utf8EncodeChar c ++ utf8Encode rest := by
      unfold utf8Encode
      simp
    rw [henc, decodeCore_encodeChar (hall c (List.mem_cons_self _ _)) (utf8Encode rest),
      ih (fun x hx => hall x (List.mem_cons_of_mem _ hx))]

/-! ### Output limiter lemmas (C8) -/

theorem limAppend_sticky {mb : Nat} {st : LimState} {c : List Nat}
    (h : st.trunc = true) : limAppend mb st c = st := by
  unfold limAppend
  rw [if_pos (by rw [h]; rfl)]
  cases st
  simp_all

theorem foldl_limAppend_sticky {mb : Nat} :
    ∀ (cs : List (List Nat)) (st : LimState), st.trunc = true →
      cs.foldl (limAppend mb) st = st := by
  intro cs
  induction cs with
  | nil => intro st _; rfl
  | cons c cs' ih =>
    intro st h
    show cs'.foldl (limAppend mb) (limAppend mb st c) = st
    rw [limAppend_sticky h]
    exact ih st h

theorem limAppend_bytes_le {mb : Nat} {st : LimState} {c : List Nat}
    (h : st.bytes ≤ mb) : (limAppend mb st c).bytes ≤ mb := by
  unfold limAppend
  dsimp only
  split_ifs with hA hB hC
  · exact h
  · exact h
  · simp only [beq_iff_eq] at hB
    show st.bytes + c.length ≤ mb
    omega
  · exact Nat.le_refl mb

theorem foldl_limAppend_bytes_le {mb : Nat} :
    ∀ (cs : List (List Nat)) (st : LimState), st.bytes ≤ mb →
      (cs.foldl (limAppend mb) st).bytes ≤ mb := by
  intro cs
  induction cs with
  | nil => intro st h; exact h
  | cons c cs' ih =>
    intro st h
    exact ih (limAppend mb st c) (limAppend_bytes_le h)

theorem limAppend_good {mb : Nat} (hmb : mb ≠ 0) {B c : List Nat}
    (hlt : B.length < mb) (hle : B.length + c.length ≤ mb) :
    limAppend mb ⟨B.length, (decodeCore B).1, (decodeCore B).2, false⟩ c =
      ⟨(B ++ c).length, (decodeCore (B ++ c)).1, (decodeCore (B ++ c)).2, false⟩ := by
  unfold limAppend
  dsimp only
  rw [if_neg (by simp [hmb]), if_neg (by simp; omega),
    if_pos (show c.length ≤ mb - B.length by omega)]
  rw [decodeCore_append B c]
  simp

theorem fold_good {mb : Nat} (hmb : mb ≠ 0) :
    ∀ (cs : List (List Nat)) (B : List Nat), limGood mb B.length cs = true →
      cs.foldl (limAppend mb) ⟨B.length, (decodeCore B).1, (decodeCore B).2, false⟩ =
        ⟨(B ++ cs.flatten).length, (decodeCore (B ++ cs.flatten)).1,
          (decodeCore (B ++ cs.flatten)).2, false⟩ := by
  intro cs
  induction cs with
  | nil => intro B _; simp
  | cons c cs' ih =>
    intro B hg
    unfold limGood at hg
    simp only [Bool.and_eq_true, decide_eq_true_iff] at hg
    obtain ⟨⟨hlt, hle⟩, hg'⟩ := hg
    show cs'.foldl (limAppend mb)
      (limAppend mb ⟨B.length, (decodeCore B).1, (decodeCore B).2, false⟩ c) = _
    rw [limAppend_good hmb hlt hle]
    have hg'' : limGood mb (B ++ c).length cs' = true := by
      rw [List.length_append]
      exact hg'
    rw [ih (B ++ c) hg'']
    simp

theorem fold_trunc {mb : Nat} (hmb : mb ≠ 0) :
    ∀ (cs : List (List Nat)) (st : LimState), st.trunc = false → st.bytes ≤ mb →
      (cs.foldl (limAppend mb) st).trunc = !(limGood mb st.bytes cs) := by
  intro cs
  induction cs with
  | nil => intro st h _; simp [limGood, h]
  | cons c cs' ih =>
    intro st h hle
    show (cs'.foldl (limAppend mb) (limAppend mb st c)).trunc = _
    unfold limGood
    by_cases hb : st.bytes = mb
    · have happ : limAppend mb st c = { st with trunc := true } := by
        unfold limAppend
        rw [if_neg (by simp [h, hmb]), if_pos (by simp; omega)]
      rw [happ, foldl_limAppend_sticky cs' _ rfl]
      simp only [decide_eq_true_iff]
      have : ¬ st.bytes < mb := by omega
      simp [this]
    · have hlt : st.bytes < mb := by omega
      by_cases hc : c.length ≤ mb - st.bytes
      · have happ : limAppend mb st c =
            { bytes := st.bytes + c.length
              text := st.text ++ (decodeCore (st.pend ++ c)).1
              pend := (decodeCore (st.pend ++ c)).2
              trunc := false } := by
          unfold limAppend
          rw [if_neg (by simp [h, hmb]), if_neg (by simp; omega), if_pos hc]
        rw [happ, ih _ rfl (by show st.bytes + c.length ≤ mb; omega)]
        have h1 : decide (st.bytes < mb) = true := by simp [hlt]
        have h2 : decide (st.bytes + c.length ≤ mb) = true := by simp; omega
        rw [h1, h2]
        rfl
      · have happ : (limAppend mb st c).trunc = true := by
          unfold limAppend
          rw [if_neg (by simp [h, hmb]), if_neg (by simp; omega), if_neg hc]
        rw [foldl_limAppend_sticky cs' _ happ, happ]
        have h2 : decide (st.bytes + c.length ≤ mb) = false := by
          simp
          omega
        rw [h2]
        simp

theorem limAppend_text_scalars {mb : Nat} {st : LimState} {c : List Nat}
    (h : ∀ x ∈ st.text, isScalar x = true) :
    ∀ x ∈ (limAppend mb st c).text, isScalar x = true := by
  unfold limAppend
  dsimp only
  split_ifs with hA hB hC
  · exact h
  · exact h
  · intro x hx
    rcases List.mem_append.mp hx with hx' | hx'
    · exact h x hx'
    · exact decodeCore_scalars _ x hx'
  · intro x hx
    rcases List.mem_append.mp hx with hx' | hx'
    · exact h x hx'
    · exact decodeCore_scalars _ x hx'

theorem foldl_text_scalars {mb : Nat} :
    ∀ (cs : List (List Nat)) (st : LimState), (∀ x ∈ st.text, isScalar x = true) →
      ∀ x ∈ (cs.foldl (limAppend mb) st).text, isScalar x = true := by
  intro cs
  induction cs with
  | nil => intro st h; exact h
  | cons c cs' ih =>
    intro st h
    exact ih (limAppend mb st c) (limAppend_text_scalars h)

theorem decodeEnd_scalars (p : List Nat) : ∀ x ∈ decodeEnd p, isScalar x = true := by
  unfold decodeEnd
  cases p with
  | nil => intro x hx; cases hx
  | cons b r =>
    intro x hx
    rcases List.mem_singleton.mp hx
    decide

theorem truncSfx_scalars : ∀ x ∈ truncSfx, isScalar x = true := by decide

theorem limFinalize_scalars {st : LimState}
    (h : ∀ x ∈ st.text, isScalar x = true) :
    ∀ x ∈ limFinalize st, isScalar x = true := by
  unfold limFinalize
  dsimp only
  split_ifs
  · intro x hx
    rcases List.mem_append.mp hx with hx' | hx'
    · rcases List.mem_append.mp hx' with hx'' | hx''
      · exact h x hx''
      · exact decodeEnd_scalars st.pend x hx''
    · exact truncSfx_scalars x hx'
  · intro x hx
    rcases List.mem_append.mp hx with hx' | hx'
    · exact h x hx'
    · exact decodeEnd_scalars st.pend x hx'

/-- C8 (corrected): for `maxBytes > 0` the limiter's byte counter never
exceeds `maxBytes`; the truncation flag is set exactly when some `append`
found the cap already reached or its chunk over the remaining capacity (in
particular whenever the total input exceeds `maxBytes`, but also when any
chunk — even an empty one — arrives after the cap was reached exactly);
when the flag is set `finalize()` is the retained text plus the
`"\n... [truncated]"` suffix, otherwise it is exactly the decoded
concatenated input; and every emitted code point is a Unicode scalar value,
so a multi-byte sequence split across chunks or cut by the byte cap never
produces invalid UTF-8.  The original claim's "otherwise it returns exactly
the concatenated input whenever the total byte length is ≤ maxBytes" fails
(see the counterexample). -/
theorem C8_output_limiter_amended (mb : Nat) (hmb : 0 < mb)
    (chunks : List (List Nat)) :
    (chunks.foldl (limAppend mb) limInit).bytes ≤ mb ∧
    (chunks.foldl (limAppend mb) limInit).trunc = !(limGood mb 0 chunks) ∧
    (limGood mb 0 chunks = false →
      limRun mb chunks =
        ((chunks.foldl (limAppend mb) limInit).text ++
          decodeEnd (chunks.foldl (limAppend mb) limInit).pend) ++ truncSfx) ∧
    (∀ cps : List Nat, (∀ c ∈ cps, isScalar c = true) →
      utf8Encode cps = chunks.flatten → limGood mb 0 chunks = true →
      limRun mb chunks = cps) ∧
    (∀ x ∈ limRun mb chunks, isScalar x = true) := by
  have hmb' : mb ≠ 0 := by omega
  refine ⟨?_, ?_, ?_, ?_, ?_⟩
  · exact foldl_limAppend_bytes_le chunks limInit (Nat.zero_le mb)
  · exact fold_trunc hmb' chunks limInit rfl (Nat.zero_le mb)
  · intro hbad
    have ht : (chunks.foldl (limAppend mb) limInit).trunc = true := by
      rw [fold_trunc hmb' chunks limInit rfl (Nat.zero_le mb)]
      show (!limGood mb 0 chunks) = true
      rw [hbad]
      rfl
    unfold limRun limFinalize
    dsimp only
    rw [if_pos ht]
  · intro cps hsc henc hgood
    have h0 : limInit =
        (⟨List.length ([] : List Nat), (decodeCore []).1, (decodeCore []).2,
          false⟩ : LimState) := rfl
    unfold limRun
    rw [h0, fold_good hmb' chunks [] (by simpa using hgood)]
    unfold limFinalize
    dsimp only
    rw [List.nil_append, ← henc, decodeCore_encode cps hsc]
    simp [decodeEnd]
  · intro x hx
    unfold limRun at hx
    exact limFinalize_scalars
      (foldl_text_scalars chunks limInit (by intro y hy; cases hy)) x hx

/-- C8 counterexample: with `maxBytes = 2` and the chunks `"ab"` then `""`
the total input is 2 bytes (not exceeding the cap), yet the empty append
after the cap was exactly reached trips the flag and `finalize()` returns
`"ab\n... [truncated]"` instead of exactly the input. -/
theorem C8_exact_fit_truncated_counterexample :
    ((([[97, 98], []] : List (List Nat)).flatten).length ≤ 2) ∧
    limRun 2 [[97, 98], []] ≠ [97, 98] := by
  exact ⟨by decide, by decide⟩

theorem C8_output_limiter_amended_witness :
    limGood 3 0 [[0xE2, 0x82], [0xAC]] = true ∧
    utf8Encode [0x20AC] = ([[0xE2, 0x82], [0xAC]] : List (List Nat)).flatten ∧
    limRun 3 [[0xE2, 0x82], [0xAC]] = [0x20AC] := by
  refine ⟨by decide, by decide, ?_⟩
  exact (C8_output_limiter_amended 3 (by decide) [[0xE2, 0x82], [0xAC]]).2.2.2.1
    [0x20AC] (by decide) (by decide) (by decide)

end Keystone
